import Mathlib

/-!
Verification of the employee-selection (weighted set cover) solver family:
domain model (`Employee`, `Client`, `Solution`), the shared `ProblemSolver`
helpers, and the four solving strategies (greedy, backtracking with pruning,
bitmask dynamic programming with an optimized dominance-filtering variant,
and the brute-force oracle).  Costs are modelled as rationals, the Python
float infinity as `⊤` in `WithTop ℚ`, Python dicts as association lists and
Python sets as duplicate-free lists.
-/

namespace StaffCover

/-- Skills are compared by identity only; we model them as naturals. -/
abbrev Skill := ℕ

/-- `elements/employee.py`: an employee has an integer id, a name, an hourly
salary and a skill map (skill ↦ level). -/
structure Employee where
  id : Int
  name : String
  salary_per_hour : ℚ
  skills : List (Skill × ℕ)
deriving DecidableEq

/-- `Employee.has_skill`: the employee has the skill at level ≥ `min_level`. -/
def Employee.has_skill (e : Employee) (skill : Skill) (min_level : ℕ) : Bool :=
  match e.skills.lookup skill with
  | some lvl => decide (min_level ≤ lvl)
  | none => false

/-- `Employee.covers_requirements`: the set of requirement keys this employee
can cover (source builds a Python set; we keep requirement-list order). -/
def Employee.covers_requirements (e : Employee) (requirements : List (Skill × ℕ)) :
    List Skill :=
  (requirements.filter (fun r => e.has_skill r.1 r.2)).map Prod.fst

/-- `elements/client.py`: a client is a requirement dict (skill ↦ min level). -/
structure Client where
  requirements : List (Skill × ℕ)
deriving DecidableEq

/-- `solver/problem_solver.py` `Solution`: selected employees (a Python set,
modelled as a duplicate-free list), total cost (`⊤` = `float('inf')`) and a
validity flag. -/
structure Solution where
  employees : List Employee
  total_cost : WithTop ℚ
  is_valid : Bool
deriving DecidableEq

/-- `Solution.invalid()`: the infeasibility sentinel. -/
def Solution.invalid : Solution := ⟨[], ⊤, false⟩

/-- `ProblemSolver.covers_requirement`. -/
def covers_requirement (e : Employee) (skill : Skill) (level : ℕ) : Bool :=
  e.has_skill skill level

/-- `ProblemSolver.get_covered_requirements`: requirement skills covered by at
least one member of `emps`. -/
def get_covered_requirements (c : Client) (emps : List Employee) : List Skill :=
  (c.requirements.filter (fun r => emps.any (fun e => covers_requirement e r.1 r.2))).map
    Prod.fst

/-- `ProblemSolver.is_complete_cover`: the covered-skill set equals the full
requirement key set (the covered set is always a subset of the keys, so this
is "every key is covered"). -/
def is_complete_cover (c : Client) (emps : List Employee) : Bool :=
  c.requirements.all (fun r => r.1 ∈ get_covered_requirements c emps)

/-- `ProblemSolver.calculate_cost`: sum of hourly salaries. -/
def calculate_cost (emps : List Employee) : ℚ :=
  (emps.map (fun e => e.salary_per_hour)).sum

/-- `ProblemSolver.build_solution`. -/
def build_solution (c : Client) (emps : List Employee) : Solution :=
  let valid := is_complete_cover c emps
  if valid then ⟨emps, (calculate_cost emps : ℚ), true⟩ else ⟨emps, ⊤, false⟩

/-- `ProblemSolver.get_uncovered_requirements`: requirement entries whose key
is not yet covered. -/
def get_uncovered_requirements (c : Client) (emps : List Employee) :
    List (Skill × ℕ) :=
  c.requirements.filter (fun r => ¬ r.1 ∈ get_covered_requirements c emps)

/-- `ProblemSolver.can_cover_any_requirement`. -/
def can_cover_any_requirement (e : Employee) (uncovered : List (Skill × ℕ)) : Bool :=
  uncovered.any (fun r => covers_requirement e r.1 r.2)

/-- Propositional form of complete coverage: every requirement is satisfied by
some member of `emps`. -/
def CoversProp (c : Client) (emps : List Employee) : Prop :=
  ∀ r ∈ c.requirements, ∃ e ∈ emps, covers_requirement e r.1 r.2 = true

instance (c : Client) (emps : List Employee) : Decidable (CoversProp c emps) := by
  unfold CoversProp; infer_instance

theorem mem_covered_iff (c : Client) (emps : List Employee) (s : Skill) :
    s ∈ get_covered_requirements c emps ↔
      ∃ r ∈ c.requirements, r.1 = s ∧ emps.any (fun e => covers_requirement e r.1 r.2) := by
  simp only [get_covered_requirements, List.mem_map, List.mem_filter]
  constructor
  · rintro ⟨r, ⟨hr, hc⟩, rfl⟩; exact ⟨r, hr, rfl, hc⟩
  · rintro ⟨r, hr, rfl, hc⟩; exact ⟨r, ⟨hr, hc⟩, rfl⟩

/-- With duplicate-free requirement keys (a Python dict guarantee),
`is_complete_cover` is exactly `CoversProp`. -/
theorem is_complete_cover_iff (c : Client) (emps : List Employee)
    (hkeys : (c.requirements.map Prod.fst).Nodup) :
    is_complete_cover c emps = true ↔ CoversProp c emps := by
  simp only [is_complete_cover, List.all_eq_true, CoversProp]
  constructor
  · intro h r hr
    have hmem := of_decide_eq_true (h r hr)
    rw [mem_covered_iff] at hmem
    obtain ⟨r', hr', hfst, hany⟩ := hmem
    have : r' = r := List.inj_on_of_nodup_map hkeys hr' hr hfst
    subst this
    rw [List.any_eq_true] at hany
    obtain ⟨e, he, hc⟩ := hany
    exact ⟨e, he, hc⟩
  · intro h r hr
    obtain ⟨e, he, hc⟩ := h r hr
    exact decide_eq_true ((mem_covered_iff c emps r.1).mpr
      ⟨r, hr, rfl, List.any_eq_true.mpr ⟨e, he, hc⟩⟩)

theorem mem_uncovered_iff (c : Client) (emps : List Employee) (r : Skill × ℕ) :
    r ∈ get_uncovered_requirements c emps ↔
      r ∈ c.requirements ∧ ¬ r.1 ∈ get_covered_requirements c emps := by
  simp [get_uncovered_requirements]

/-- If a requirement entry is uncovered, no selected employee satisfies it. -/
theorem uncovered_not_covered (c : Client) (emps : List Employee) (r : Skill × ℕ)
    (h : r ∈ get_uncovered_requirements c emps) :
    ∀ e ∈ emps, covers_requirement e r.1 r.2 = false := by
  rw [mem_uncovered_iff] at h
  intro e he
  by_contra hne
  have hc : covers_requirement e r.1 r.2 = true := by
    cases hcc : covers_requirement e r.1 r.2 with
    | true => rfl
    | false => exact absurd hcc hne
  exact h.2 (mem_covered_iff c emps r.1 |>.mpr
    ⟨r, h.1, rfl, List.any_eq_true.mpr ⟨e, he, hc⟩⟩)

/-- A requirement entry covered by no selected employee is in the uncovered
list (no key-uniqueness needed for this direction is false in general, so we
require duplicate-free keys). -/
theorem mem_uncovered_of_not_covered (c : Client) (emps : List Employee)
    (hkeys : (c.requirements.map Prod.fst).Nodup) (r : Skill × ℕ)
    (hr : r ∈ c.requirements)
    (h : ∀ e ∈ emps, covers_requirement e r.1 r.2 = false) :
    r ∈ get_uncovered_requirements c emps := by
  rw [mem_uncovered_iff]
  refine ⟨hr, fun hc => ?_⟩
  rw [mem_covered_iff] at hc
  obtain ⟨r', hr', hfst, hany⟩ := hc
  have : r' = r := List.inj_on_of_nodup_map hkeys hr' hr hfst
  subst this
  rw [List.any_eq_true] at hany
  obtain ⟨e, he, hce⟩ := hany
  rw [h e he] at hce
  exact Bool.false_ne_true hce

/-! ### Minimum over a list of extended costs -/

/-- Minimum of a list of extended costs (`⊤` for the empty list). -/
def listMin (l : List (WithTop ℚ)) : WithTop ℚ := l.foldr min ⊤

theorem listMin_nil : listMin [] = ⊤ := rfl

theorem listMin_cons (a : WithTop ℚ) (l : List (WithTop ℚ)) :
    listMin (a :: l) = min a (listMin l) := rfl

theorem listMin_le_of_mem {a : WithTop ℚ} {l : List (WithTop ℚ)} (h : a ∈ l) :
    listMin l ≤ a := by
  induction l with
  | nil => cases h
  | cons b t ih =>
    rw [listMin_cons]
    rcases List.mem_cons.mp h with rfl | hm
    · exact min_le_left _ _
    · exact le_trans (min_le_right _ _) (ih hm)

theorem le_listMin {b : WithTop ℚ} {l : List (WithTop ℚ)} (h : ∀ a ∈ l, b ≤ a) :
    b ≤ listMin l := by
  induction l with
  | nil => exact le_top
  | cons a t ih =>
    rw [listMin_cons]
    exact le_min (h a (List.mem_cons_self a t)) (ih fun x hx => h x (List.mem_cons_of_mem a hx))

theorem listMin_append (l₁ l₂ : List (WithTop ℚ)) :
    listMin (l₁ ++ l₂) = min (listMin l₁) (listMin l₂) := by
  induction l₁ with
  | nil => simp [listMin_nil]
  | cons a t ih =>
    simp only [List.cons_append, listMin_cons, ih, min_assoc]

theorem listMin_eq_top_or_mem (l : List (WithTop ℚ)) :
    listMin l = ⊤ ∨ listMin l ∈ l := by
  induction l with
  | nil => exact Or.inl rfl
  | cons a t ih =>
    rw [listMin_cons]
    rcases min_choice a (listMin t) with h | h
    · rw [h]; exact Or.inr (List.mem_cons_self a t)
    · rcases ih with ht | ht
      · rw [h, ht]; exact Or.inl rfl
      · rw [h]; exact Or.inr (List.mem_cons_of_mem a ht)

/-- Comparison of two list minima by pointwise domination of elements. -/
theorem listMin_le_listMin {l₁ l₂ : List (WithTop ℚ)}
    (h : ∀ a ∈ l₂, ∃ b ∈ l₁, b ≤ a) : listMin l₁ ≤ listMin l₂ := by
  apply le_listMin
  intro a ha
  obtain ⟨b, hb, hba⟩ := h a ha
  exact le_trans (listMin_le_of_mem hb) hba

/-! ### Employee equality, hashing and Python-set semantics (C10) -/

/-- `Employee.__eq__`: equality compares only the `id` field (the isinstance
check always succeeds between two employees). -/
def Employee.pyEq (a b : Employee) : Bool := a.id == b.id

/-- CPython's hash of an unbounded int: reduce modulo `2^61 - 1`, keeping the
sign, then map the reserved value `-1` to `-2`. -/
def pyIntHash (n : Int) : Int :=
  let M : Int := 2 ^ 61 - 1
  let h : Int := if 0 ≤ n then n % M else -((-n) % M)
  if h = -1 then -2 else h

/-- `Employee.__hash__`: `hash(self.id)`. -/
def Employee.pyHash (e : Employee) : Int := pyIntHash e.id

/-- Python's `set(iterable)` built over `Employee.__eq__`: elements are added
in order and an element equal (by id) to an already-present one is dropped. -/
def pySetOfList (l : List Employee) : List Employee :=
  l.foldl (fun acc e => if acc.any (fun x => x.pyEq e) then acc else acc ++ [e]) []

theorem pySetOfList_go_nodup (l : List Employee) (acc : List Employee)
    (hacc : (acc.map Employee.id).Nodup) :
    ((l.foldl (fun acc e => if acc.any (fun x => x.pyEq e) then acc else acc ++ [e]) acc).map
      Employee.id).Nodup := by
  induction l generalizing acc with
  | nil => exact hacc
  | cons e t ih =>
    simp only [List.foldl_cons]
    by_cases h : acc.any (fun x => x.pyEq e) = true
    · rw [if_pos h]; exact ih acc hacc
    · rw [if_neg h]
      apply ih
      rw [List.map_append, List.map_singleton]
      apply List.Nodup.append hacc (List.nodup_singleton _)
      intro i hi hi2
      rw [List.mem_singleton] at hi2
      subst hi2
      rw [List.any_eq_true] at h
      rw [List.mem_map] at hi
      obtain ⟨x, hx, hxid⟩ := hi
      exact h ⟨x, hx, by simp [Employee.pyEq, hxid]⟩

theorem pySetOfList_nodup (l : List Employee) :
    ((pySetOfList l).map Employee.id).Nodup :=
  pySetOfList_go_nodup l [] List.nodup_nil

/-! ### Oracle solver (`solver/oracle_solver.py`) -/

/-- Maximum level at which some member of `subset` offers skill `s` (the
`covered` dict of `OracleSolver._covers_requirements`, 0 when absent). -/
def subset_level (subset : List Employee) (s : Skill) : ℕ :=
  subset.foldl (fun acc e => max acc ((e.skills.lookup s).getD 0)) 0

/-- `OracleSolver._covers_requirements`: every requirement is met by the
aggregated maximum levels of the subset. -/
def oracle_covers_requirements (c : Client) (subset : List Employee) : Bool :=
  c.requirements.all (fun r => decide (r.2 ≤ subset_level subset r.1))

/-- The non-empty subsets of the pool, by increasing size (`for r in
range(1, n + 1): for subset in combinations(employees, r)`; the pool is a
Python set, so the enumeration order within one size is arbitrary). -/
def oracle_candidates (pool : List Employee) : List (List Employee) :=
  (List.range pool.length).bind (fun r => List.sublistsLen (r + 1) pool)

/-- `OracleSolver.solve`: keep the cheapest covering subset (strict
improvement, first enumerated wins ties); returns the chosen employee set
together with the internal best cost (`float('inf')` when none covers). -/
def oracle_solve (c : Client) (pool : List Employee) : List Employee × WithTop ℚ :=
  (oracle_candidates pool).foldl
    (fun best subset =>
      if oracle_covers_requirements c subset then
        if ((calculate_cost subset : ℚ) : WithTop ℚ) < best.2 then
          (subset, ((calculate_cost subset : ℚ) : WithTop ℚ))
        else best
      else best)
    ([], ⊤)

/-- Minimum cost over all covering subsets of the pool — the quantity the
specification calls "the minimum cost over all subsets of the worker pool
that form a complete cover". -/
def minCoverCost (c : Client) (pool : List Employee) : WithTop ℚ :=
  listMin ((pool.sublists.filter (fun L => is_complete_cover c L)).map
    (fun L => ((calculate_cost L : ℚ) : WithTop ℚ)))

/-- Minimum cost over the oracle's candidate subsets that it accepts. -/
def oracleMinCost (c : Client) (pool : List Employee) : WithTop ℚ :=
  listMin (((oracle_candidates pool).filter
      (fun L => oracle_covers_requirements c L)).map
    (fun L => ((calculate_cost L : ℚ) : WithTop ℚ)))

theorem mem_oracle_candidates {pool : List Employee} {L : List Employee} :
    L ∈ oracle_candidates pool ↔ List.Sublist L pool ∧ L ≠ [] := by
  simp only [oracle_candidates, List.mem_bind, List.mem_range,
    List.mem_sublistsLen]
  constructor
  · rintro ⟨r, hr, hsub, hlen⟩
    refine ⟨hsub, ?_⟩
    intro hnil
    rw [hnil] at hlen
    simp at hlen
  · rintro ⟨hsub, hne⟩
    have hlen : 0 < L.length := List.length_pos.mpr hne
    refine ⟨L.length - 1, ?_, hsub, by omega⟩
    have := hsub.length_le
    omega

theorem foldl_max_le_init (f : Employee → ℕ) (l : List Employee) (acc : ℕ) :
    acc ≤ l.foldl (fun a e => max a (f e)) acc := by
  induction l generalizing acc with
  | nil => exact le_refl acc
  | cons x t ih => exact le_trans (le_max_left acc (f x)) (ih (max acc (f x)))

theorem foldl_max_mem_le (f : Employee → ℕ) (l : List Employee) (acc : ℕ) :
    ∀ e ∈ l, f e ≤ l.foldl (fun a e => max a (f e)) acc := by
  induction l generalizing acc with
  | nil => intro e he; cases he
  | cons x t ih =>
    intro e he
    rcases List.mem_cons.mp he with rfl | hm
    · exact le_trans (le_max_right acc (f e)) (foldl_max_le_init f t _)
    · exact ih (max acc (f x)) e hm

theorem foldl_max_cases (f : Employee → ℕ) (l : List Employee) (acc : ℕ) :
    l.foldl (fun a e => max a (f e)) acc = acc ∨
      ∃ e ∈ l, l.foldl (fun a e => max a (f e)) acc = f e := by
  induction l generalizing acc with
  | nil => exact Or.inl rfl
  | cons x t ih =>
    simp only [List.foldl_cons]
    rcases ih (max acc (f x)) with h0 | ⟨e, he, heq⟩
    · rw [h0]
      rcases max_choice acc (f x) with hm | hm
      · exact Or.inl hm
      · exact Or.inr ⟨x, List.mem_cons_self x t, hm⟩
    · exact Or.inr ⟨e, List.mem_cons_of_mem x he, heq⟩

theorem subset_level_ge (subset : List Employee) (s : Skill) :
    ∀ e ∈ subset, ((e.skills.lookup s).getD 0) ≤ subset_level subset s :=
  foldl_max_mem_le (fun e => (e.skills.lookup s).getD 0) subset 0

theorem subset_level_attained (subset : List Employee) (s : Skill) :
    subset_level subset s = 0 ∨
      ∃ e ∈ subset, subset_level subset s = (e.skills.lookup s).getD 0 :=
  foldl_max_cases (fun e => (e.skills.lookup s).getD 0) subset 0

/-- With requirement levels ≥ 1 (enforced by `Client._validate_requirements`),
the oracle's max-aggregation coverage test agrees with `CoversProp`. -/
theorem oracle_covers_iff (c : Client) (subset : List Employee)
    (hlvl : ∀ r ∈ c.requirements, 1 ≤ r.2) :
    oracle_covers_requirements c subset = true ↔ CoversProp c subset := by
  simp only [oracle_covers_requirements, List.all_eq_true, decide_eq_true_eq, CoversProp]
  constructor
  · intro h r hr
    have hle := h r hr
    have h1 : 1 ≤ subset_level subset r.1 := le_trans (hlvl r hr) hle
    rcases subset_level_attained subset r.1 with h0 | ⟨e, he, heq⟩
    · omega
    · refine ⟨e, he, ?_⟩
      rw [heq] at hle h1
      unfold covers_requirement Employee.has_skill
      cases hl : e.skills.lookup r.1 with
      | none =>
        rw [hl] at h1
        simp at h1
      | some lvl =>
        rw [hl] at hle
        simp only [Option.getD_some] at hle
        simpa using hle
  · intro h r hr
    obtain ⟨e, he, hc⟩ := h r hr
    unfold covers_requirement Employee.has_skill at hc
    cases hl : e.skills.lookup r.1 with
    | none => rw [hl] at hc; simp at hc
    | some lvl =>
      rw [hl] at hc
      simp only [decide_eq_true_eq] at hc
      calc r.2 ≤ lvl := hc
        _ = (e.skills.lookup r.1).getD 0 := by rw [hl]; rfl
        _ ≤ subset_level subset r.1 := subset_level_ge subset r.1 e he

/-- Characterization of the oracle fold: the resulting best cost is the
minimum of the initial cost and the costs of all accepted candidates, and the
resulting set is either the initial one or a covering candidate realizing the
resulting cost. -/
theorem oracle_fold_spec (c : Client) (cands : List (List Employee))
    (init : List Employee × WithTop ℚ) :
    (cands.foldl
      (fun best subset =>
        if oracle_covers_requirements c subset then
          if ((calculate_cost subset : ℚ) : WithTop ℚ) < best.2 then
            (subset, ((calculate_cost subset : ℚ) : WithTop ℚ))
          else best
        else best) init).2 =
      min init.2 (listMin ((cands.filter (fun L => oracle_covers_requirements c L)).map
        (fun L => ((calculate_cost L : ℚ) : WithTop ℚ)))) ∧
    ((cands.foldl
      (fun best subset =>
        if oracle_covers_requirements c subset then
          if ((calculate_cost subset : ℚ) : WithTop ℚ) < best.2 then
            (subset, ((calculate_cost subset : ℚ) : WithTop ℚ))
          else best
        else best) init) = init ∨
      (∃ L ∈ cands, oracle_covers_requirements c L = true ∧
        (cands.foldl
          (fun best subset =>
            if oracle_covers_requirements c subset then
              if ((calculate_cost subset : ℚ) : WithTop ℚ) < best.2 then
                (subset, ((calculate_cost subset : ℚ) : WithTop ℚ))
              else best
            else best) init) = (L, ((calculate_cost L : ℚ) : WithTop ℚ)))) := by
  induction cands generalizing init with
  | nil =>
    constructor
    · simp only [List.foldl_nil, List.filter_nil, List.map_nil, listMin_nil]
      exact (min_eq_left le_top).symm
    · exact Or.inl (by simp only [List.foldl_nil])
  | cons x t ih =>
    simp only [List.foldl_cons]
    by_cases hcov : oracle_covers_requirements c x = true
    · rw [if_pos hcov]
      have hfc : List.filter (fun L => oracle_covers_requirements c L) (x :: t) =
          x :: List.filter (fun L => oracle_covers_requirements c L) t :=
        List.filter_cons_of_pos hcov
      by_cases himp : ((calculate_cost x : ℚ) : WithTop ℚ) < init.2
      · rw [if_pos himp]
        obtain ⟨h1, h2⟩ := ih (x, ((calculate_cost x : ℚ) : WithTop ℚ))
        constructor
        · rw [h1, hfc]
          simp only [List.map_cons, listMin_cons]
          have hle : min ((calculate_cost x : ℚ) : WithTop ℚ)
                (listMin (List.map (fun L => ((calculate_cost L : ℚ) : WithTop ℚ))
                  (List.filter (fun L => oracle_covers_requirements c L) t))) ≤ init.2 :=
            le_trans (min_le_left _ _) (le_of_lt himp)
          exact (min_eq_right hle).symm
        · rcases h2 with h2 | ⟨L, hL, hLc, hLe⟩
          · exact Or.inr ⟨x, List.mem_cons_self x t, hcov, h2⟩
          · exact Or.inr ⟨L, List.mem_cons_of_mem x hL, hLc, hLe⟩
      · rw [if_neg himp]
        obtain ⟨h1, h2⟩ := ih init
        constructor
        · rw [h1, hfc]
          simp only [List.map_cons, listMin_cons]
          rw [← min_assoc, min_comm init.2 ((calculate_cost x : ℚ) : WithTop ℚ),
            min_eq_right (not_lt.mp himp)]
        · rcases h2 with h2 | ⟨L, hL, hLc, hLe⟩
          · exact Or.inl h2
          · exact Or.inr ⟨L, List.mem_cons_of_mem x hL, hLc, hLe⟩
    · rw [if_neg hcov]
      obtain ⟨h1, h2⟩ := ih init
      have hfc : List.filter (fun L => oracle_covers_requirements c L) (x :: t) =
          List.filter (fun L => oracle_covers_requirements c L) t :=
        List.filter_cons_of_neg (by simpa using hcov)
      constructor
      · rw [h1, hfc]
      · rcases h2 with h2 | ⟨L, hL, hLc, hLe⟩
        · exact Or.inl h2
        · exact Or.inr ⟨L, List.mem_cons_of_mem x hL, hLc, hLe⟩

theorem oracle_solve_cost (c : Client) (pool : List Employee) :
    (oracle_solve c pool).2 = oracleMinCost c pool := by
  have := (oracle_fold_spec c (oracle_candidates pool) ([], ⊤)).1
  rw [oracle_solve, this, oracleMinCost]
  exact min_eq_right le_top

theorem oracle_solve_set (c : Client) (pool : List Employee) :
    oracle_solve c pool = ([], ⊤) ∨
      ∃ L ∈ oracle_candidates pool, oracle_covers_requirements c L = true ∧
        oracle_solve c pool = (L, ((calculate_cost L : ℚ) : WithTop ℚ)) :=
  (oracle_fold_spec c (oracle_candidates pool) ([], ⊤)).2

/-! ### Greedy solver (`solver/greedy_solver.py`) -/

/-- The efficiency metric actually computed by
`GreedySolver._select_best_employee`:
`new_coverage / max(salary_per_hour, 1.0)`. -/
def pyEff (e : Employee) (uncovered : List (Skill × ℕ)) : ℚ :=
  ((e.covers_requirements uncovered).length : ℚ) / max e.salary_per_hour 1

/-- The efficiency metric named by the specification:
`new_coverage / hourly_cost`. -/
def specEff (e : Employee) (uncovered : List (Skill × ℕ)) : ℚ :=
  ((e.covers_requirements uncovered).length : ℚ) / e.salary_per_hour

/-- `GreedySolver._select_best_employee`: scan the available employees,
skip those covering nothing, track the strictly best efficiency seen
(initialized to −1, so ties keep the earlier employee). -/
def select_best_employee (available : List Employee)
    (uncovered : List (Skill × ℕ)) : Option Employee :=
  (available.foldl
    (fun acc e =>
      if (e.covers_requirements uncovered).length = 0 then acc
      else if acc.2 < pyEff e uncovered then (some e, pyEff e uncovered) else acc)
    ((none : Option Employee), (-1 : ℚ))).1

theorem pyEff_nonneg (e : Employee) (uncovered : List (Skill × ℕ)) :
    0 ≤ pyEff e uncovered := by
  unfold pyEff
  apply div_nonneg (by positivity)
  exact le_trans zero_le_one (le_max_right _ _)

theorem pyEff_pos (e : Employee) (uncovered : List (Skill × ℕ))
    (h : (e.covers_requirements uncovered).length ≠ 0) :
    0 < pyEff e uncovered := by
  unfold pyEff
  apply div_pos
  · exact_mod_cast Nat.pos_of_ne_zero h
  · exact lt_of_lt_of_le zero_lt_one (le_max_right _ _)

theorem select_fold_spec (uncovered : List (Skill × ℕ)) (l : List Employee)
    (acc : Option Employee × ℚ) :
    acc.2 ≤ (l.foldl
      (fun acc e =>
        if (e.covers_requirements uncovered).length = 0 then acc
        else if acc.2 < pyEff e uncovered then (some e, pyEff e uncovered) else acc)
      acc).2 ∧
    (∀ x ∈ l, (x.covers_requirements uncovered).length ≠ 0 →
      pyEff x uncovered ≤ (l.foldl
        (fun acc e =>
          if (e.covers_requirements uncovered).length = 0 then acc
          else if acc.2 < pyEff e uncovered then (some e, pyEff e uncovered) else acc)
        acc).2) ∧
    ((l.foldl
        (fun acc e =>
          if (e.covers_requirements uncovered).length = 0 then acc
          else if acc.2 < pyEff e uncovered then (some e, pyEff e uncovered) else acc)
        acc) = acc ∨
      ∃ e ∈ l, (e.covers_requirements uncovered).length ≠ 0 ∧
        (l.foldl
          (fun acc e =>
            if (e.covers_requirements uncovered).length = 0 then acc
            else if acc.2 < pyEff e uncovered then (some e, pyEff e uncovered) else acc)
          acc) = (some e, pyEff e uncovered)) := by
  induction l generalizing acc with
  | nil => exact ⟨le_refl _, fun x hx => absurd hx (List.not_mem_nil x), Or.inl rfl⟩
  | cons x t ih =>
    simp only [List.foldl_cons]
    by_cases hcov : (x.covers_requirements uncovered).length = 0
    · rw [if_pos hcov]
      obtain ⟨h1, h2, h3⟩ := ih acc
      refine ⟨h1, ?_, ?_⟩
      · intro y hy hyc
        rcases List.mem_cons.mp hy with rfl | hm
        · exact absurd hcov hyc
        · exact h2 y hm hyc
      · rcases h3 with h3 | ⟨e, he, hec, heq⟩
        · exact Or.inl h3
        · exact Or.inr ⟨e, List.mem_cons_of_mem x he, hec, heq⟩
    · rw [if_neg hcov]
      by_cases himp : acc.2 < pyEff x uncovered
      · rw [if_pos himp]
        obtain ⟨h1, h2, h3⟩ := ih (some x, pyEff x uncovered)
        refine ⟨le_trans (le_of_lt himp) h1, ?_, ?_⟩
        · intro y hy hyc
          rcases List.mem_cons.mp hy with rfl | hm
          · exact h1
          · exact h2 y hm hyc
        · rcases h3 with h3 | ⟨e, he, hec, heq⟩
          · exact Or.inr ⟨x, List.mem_cons_self x t, hcov, h3⟩
          · exact Or.inr ⟨e, List.mem_cons_of_mem x he, hec, heq⟩
      · rw [if_neg himp]
        obtain ⟨h1, h2, h3⟩ := ih acc
        refine ⟨h1, ?_, ?_⟩
        · intro y hy hyc
          rcases List.mem_cons.mp hy with rfl | hm
          · exact le_trans (not_lt.mp himp) h1
          · exact h2 y hm hyc
        · rcases h3 with h3 | ⟨e, he, hec, heq⟩
          · exact Or.inl h3
          · exact Or.inr ⟨e, List.mem_cons_of_mem x he, hec, heq⟩

/-- The chosen employee is available, covers at least one uncovered
requirement, and maximizes the implemented efficiency metric. -/
theorem select_best_spec (available : List Employee)
    (uncovered : List (Skill × ℕ)) {e : Employee}
    (h : select_best_employee available uncovered = some e) :
    e ∈ available ∧ (e.covers_requirements uncovered).length ≠ 0 ∧
      ∀ x ∈ available, pyEff x uncovered ≤ pyEff e uncovered := by
  obtain ⟨h1, h2, h3⟩ := select_fold_spec uncovered available (none, -1)
  unfold select_best_employee at h
  rcases h3 with h3 | ⟨d, hd, hdc, hdeq⟩
  · rw [h3] at h; cases h
  · rw [hdeq] at h
    obtain rfl : d = e := by injection h
    rw [hdeq] at h2
    exact ⟨hd, hdc, fun x hx => by
      by_cases hxc : (x.covers_requirements uncovered).length = 0
      · have : pyEff x uncovered = 0 := by
          unfold pyEff
          rw [hxc]
          simp
        rw [this]
        exact le_of_lt (pyEff_pos d uncovered hdc)
      · exact h2 x hx hxc⟩

/-- If no employee is chosen, every available employee covers nothing. -/
theorem select_best_none (available : List Employee)
    (uncovered : List (Skill × ℕ))
    (h : select_best_employee available uncovered = none) :
    ∀ x ∈ available, (x.covers_requirements uncovered).length = 0 := by
  obtain ⟨h1, h2, h3⟩ := select_fold_spec uncovered available (none, -1)
  intro x hx
  by_contra hxc
  have := h2 x hx hxc
  unfold select_best_employee at h
  rcases h3 with h3 | ⟨d, hd, hdc, hdeq⟩
  · rw [h3] at this
    have hpos := pyEff_pos x uncovered hxc
    simp only at this
    linarith
  · rw [hdeq] at h
    cases h

theorem length_filter_lt {p : Employee → Bool} {l : List Employee} {e : Employee}
    (he : e ∈ l) (hpe : p e = false) : (l.filter p).length < l.length := by
  induction l with
  | nil => cases he
  | cons x t ih =>
    rcases List.mem_cons.mp he with rfl | hm
    · simp only [List.filter_cons, hpe, List.length_cons]
      exact Nat.lt_succ_of_le (List.length_filter_le p t)
    · simp only [List.filter_cons, List.length_cons]
      cases hpx : p x
      · exact Nat.lt_succ_of_lt (ih hm)
      · simpa using Nat.succ_lt_succ (ih hm)

/-- The main loop of `GreedySolver.solve`: while requirements remain uncovered
and employees remain available, add the best employee, remove it from the
available set, charge its salary and discharge the requirements it covers;
stop early when no available employee covers anything. -/
def greedy_go (c : Client) (available : List Employee)
    (uncovered : List (Skill × ℕ)) (selected : List Employee)
    (total_cost : ℚ) : Solution :=
  if uncovered ≠ [] ∧ available ≠ [] then
    match hb : select_best_employee available uncovered with
    | none => ⟨selected, (total_cost : ℚ), uncovered.isEmpty⟩
    | some best =>
        greedy_go c (available.filter (fun x => decide (x.id ≠ best.id)))
          (uncovered.filter (fun r => decide (¬ r.1 ∈ best.covers_requirements uncovered)))
          (selected ++ [best]) (total_cost + best.salary_per_hour)
  else ⟨selected, (total_cost : ℚ), uncovered.isEmpty⟩
termination_by available.length
decreasing_by
  exact length_filter_lt (select_best_spec available uncovered hb).1 (by simp)

/-- `GreedySolver.solve`. -/
def greedy_solve (c : Client) (pool : List Employee) : Solution :=
  greedy_go c pool c.requirements [] 0

theorem calculate_cost_append (l₁ l₂ : List Employee) :
    calculate_cost (l₁ ++ l₂) = calculate_cost l₁ + calculate_cost l₂ := by
  simp [calculate_cost]

theorem calculate_cost_nonneg {l : List Employee}
    (h : ∀ e ∈ l, 0 ≤ e.salary_per_hour) : 0 ≤ calculate_cost l := by
  apply List.sum_nonneg
  intro x hx
  rw [List.mem_map] at hx
  obtain ⟨e, he, rfl⟩ := hx
  exact h e he

/-- Membership in `Employee.covers_requirements`. -/
theorem mem_covers_requirements {e : Employee} {reqs : List (Skill × ℕ)} {s : Skill} :
    s ∈ e.covers_requirements reqs ↔
      ∃ r ∈ reqs, r.1 = s ∧ e.has_skill r.1 r.2 = true := by
  simp only [Employee.covers_requirements, List.mem_map, List.mem_filter]
  constructor
  · rintro ⟨r, ⟨hr, hc⟩, rfl⟩; exact ⟨r, hr, rfl, hc⟩
  · rintro ⟨r, hr, rfl, hc⟩; exact ⟨r, ⟨hr, hc⟩, rfl⟩

theorem greedy_stop_eq (c : Client) (available : List Employee)
    (uncovered : List (Skill × ℕ)) (selected : List Employee) (total_cost : ℚ)
    (h : ¬ (uncovered ≠ [] ∧ available ≠ [])) :
    greedy_go c available uncovered selected total_cost =
      ⟨selected, ((total_cost : ℚ) : WithTop ℚ), uncovered.isEmpty⟩ := by
  unfold greedy_go
  rw [if_neg h]

theorem greedy_none_eq (c : Client) (available : List Employee)
    (uncovered : List (Skill × ℕ)) (selected : List Employee) (total_cost : ℚ)
    (h : uncovered ≠ [] ∧ available ≠ [])
    (hb : select_best_employee available uncovered = none) :
    greedy_go c available uncovered selected total_cost =
      ⟨selected, ((total_cost : ℚ) : WithTop ℚ), uncovered.isEmpty⟩ := by
  unfold greedy_go
  rw [if_pos h]
  split
  · rfl
  · rename_i best heq
    rw [hb] at heq
    cases heq

theorem greedy_step_eq (c : Client) (available : List Employee)
    (uncovered : List (Skill × ℕ)) (selected : List Employee) (total_cost : ℚ)
    (h : uncovered ≠ [] ∧ available ≠ []) (best : Employee)
    (hb : select_best_employee available uncovered = some best) :
    greedy_go c available uncovered selected total_cost =
      greedy_go c (available.filter (fun x => decide (x.id ≠ best.id)))
        (uncovered.filter (fun r => decide (¬ r.1 ∈ best.covers_requirements uncovered)))
        (selected ++ [best]) (total_cost + best.salary_per_hour) := by
  conv_lhs => rw [greedy_go]
  rw [if_pos h]
  split
  · rename_i heq
    rw [hb] at heq
    cases heq
  · rename_i b heq
    rw [hb] at heq
    injection heq with heq2
    subst heq2
    rfl

/-- Invariant-carrying specification of the greedy loop: the returned cost is
the summed salary of the returned selection, the selection extends `selected`
by available employees without duplicate ids, and a valid result covers every
requirement. -/
theorem greedy_go_spec (c : Client) (available : List Employee)
    (uncovered : List (Skill × ℕ)) (selected : List Employee) (total_cost : ℚ) :
    ((selected.map Employee.id).Nodup) →
    (∀ x ∈ selected, ∀ y ∈ available, x.id ≠ y.id) →
    total_cost = calculate_cost selected →
    ((uncovered.map Prod.fst).Nodup) →
    (∀ r ∈ c.requirements, r ∈ uncovered ∨
      ∃ e ∈ selected, covers_requirement e r.1 r.2 = true) →
    (greedy_go c available uncovered selected total_cost).total_cost =
        ((calculate_cost (greedy_go c available uncovered selected total_cost).employees : ℚ) :
          WithTop ℚ) ∧
      (∀ x ∈ (greedy_go c available uncovered selected total_cost).employees,
        x ∈ selected ∨ x ∈ available) ∧
      ((greedy_go c available uncovered selected total_cost).employees.map Employee.id).Nodup ∧
      ((greedy_go c available uncovered selected total_cost).is_valid = true →
        CoversProp c (greedy_go c available uncovered selected total_cost).employees) := by
  induction available, uncovered, selected, total_cost using greedy_go.induct c with
  | case1 available uncovered selected total_cost hcond hb =>
    intro hnd hdisj hcost huk hinv
    rw [greedy_none_eq c available uncovered selected total_cost hcond hb]
    refine ⟨by rw [hcost], fun x hx => Or.inl hx, hnd, ?_⟩
    intro hval
    have hemp : uncovered = [] := by
      simpa [List.isEmpty_iff] using hval
    exact absurd hemp hcond.1
  | case2 available uncovered selected total_cost hcond best hb ih =>
    intro hnd hdisj hcost huk hinv
    obtain ⟨hbmem, hbcov, hbmax⟩ := select_best_spec available uncovered hb
    rw [greedy_step_eq c available uncovered selected total_cost hcond best hb]
    have hnd2 : ((selected ++ [best]).map Employee.id).Nodup := by
      rw [List.map_append, List.map_singleton]
      apply List.Nodup.append hnd (List.nodup_singleton _)
      intro i hi hi2
      rw [List.mem_singleton] at hi2
      subst hi2
      rw [List.mem_map] at hi
      obtain ⟨x, hx, hxid⟩ := hi
      exact hdisj x hx best hbmem hxid
    have hdisj2 : ∀ x ∈ selected ++ [best],
        ∀ y ∈ available.filter (fun x => decide (x.id ≠ best.id)), x.id ≠ y.id := by
      intro x hx y hy
      rw [List.mem_filter] at hy
      rcases List.mem_append.mp hx with hxs | hxb
      · exact hdisj x hxs y (hy.1)
      · rw [List.mem_singleton] at hxb
        subst hxb
        have h2 := hy.2
        simp only [decide_eq_true_eq] at h2
        exact fun hcontra => h2 hcontra.symm
    have hcost2 : total_cost + best.salary_per_hour = calculate_cost (selected ++ [best]) := by
      rw [calculate_cost_append, hcost]
      simp [calculate_cost]
    have huk2 : ((uncovered.filter
        (fun r => decide (¬ r.1 ∈ best.covers_requirements uncovered))).map Prod.fst).Nodup := by
      apply List.Nodup.sublist _ huk
      exact List.Sublist.map Prod.fst (List.filter_sublist uncovered)
    have hinv2 : ∀ r ∈ c.requirements,
        r ∈ uncovered.filter (fun r => decide (¬ r.1 ∈ best.covers_requirements uncovered)) ∨
        ∃ e ∈ selected ++ [best], covers_requirement e r.1 r.2 = true := by
      intro r hr
      rcases hinv r hr with hu | ⟨e, he, hec⟩
      · by_cases hrb : r.1 ∈ best.covers_requirements uncovered
        · obtain ⟨r2, hr2, hr2f, hr2s⟩ := mem_covers_requirements.mp hrb
          have hre : r2 = r := List.inj_on_of_nodup_map huk hr2 hu hr2f
          subst hre
          refine Or.inr ⟨best, List.mem_append.mpr (Or.inr (List.mem_singleton_self best)), ?_⟩
          unfold covers_requirement
          exact hr2s
        · refine Or.inl (List.mem_filter.mpr ⟨hu, by simpa using hrb⟩)
      · exact Or.inr ⟨e, List.mem_append.mpr (Or.inl he), hec⟩
    obtain ⟨c1, c2, c3, c4⟩ := ih hnd2 hdisj2 hcost2 huk2 hinv2
    refine ⟨c1, ?_, c3, c4⟩
    intro x hx
    rcases c2 x hx with hxs | hxa
    · rcases List.mem_append.mp hxs with hxs2 | hxb
      · exact Or.inl hxs2
      · rw [List.mem_singleton] at hxb
        subst hxb
        exact Or.inr hbmem
    · rw [List.mem_filter] at hxa
      exact Or.inr hxa.1
  | case3 available uncovered selected total_cost hcond =>
    intro hnd hdisj hcost huk hinv
    rw [greedy_stop_eq c available uncovered selected total_cost hcond]
    refine ⟨by rw [hcost], fun x hx => Or.inl hx, hnd, ?_⟩
    intro hval
    have hemp : uncovered = [] := by
      simpa [List.isEmpty_iff] using hval
    subst hemp
    intro r hr
    rcases hinv r hr with hu | ⟨e, he, hec⟩
    · cases hu
    · exact ⟨e, he, hec⟩

/-! ### Bitmask dynamic-programming solver (`solver/dp_solver.py`) -/

/-- Build a bitmask from a list of flags, flag `i` giving bit `i`. -/
def mask_of_flags : List Bool → ℕ
  | [] => 0
  | b :: rest => (if b then 1 else 0) + 2 * mask_of_flags rest

/-- `DPSolver._get_employee_mask`: bit `i` is set iff the employee has the
skill of requirement `i` at the required level (requirement `i` receives bit
position `i` from `enumerate` over the requirement dict, whose keys are
distinct). -/
def employee_mask (c : Client) (e : Employee) : ℕ :=
  mask_of_flags (c.requirements.map (fun r => e.has_skill r.1 r.2))

/-- `DPSolver.MAX_REQUIREMENTS`. -/
def MAX_REQUIREMENTS : ℕ := 20

/-- The DP state: the `dp` cost table and the `parent` backpointer table,
both indexed by requirement bitmask. -/
abbrev DPTable := (ℕ → WithTop ℚ) × (ℕ → Option (Employee × ℕ))

/-- The body of the inner loop of `DPSolver._run_dp` at state `S`:
if `dp[S]` is reachable and going through the employee improves
`dp[S | mask]`, update the cost and record the backpointer. -/
def dp_step (e : Employee) (m : ℕ) (st : DPTable) (S : ℕ) : DPTable :=
  if st.1 S < ⊤ then
    let nextS := S ||| m
    let newCost := st.1 S + (e.salary_per_hour : WithTop ℚ)
    if newCost < st.1 nextS then
      (Function.update st.1 nextS newCost, Function.update st.2 nextS (some (e, S)))
    else st
  else st

/-- One pass of `DPSolver._run_dp` for a single employee:
`for S in range(full_mask, -1, -1)`. -/
def dp_pass (full : ℕ) (e : Employee) (m : ℕ) (st : DPTable) : DPTable :=
  ((List.range (full + 1)).reverse).foldl (dp_step e m) st

/-- The initial DP state: `dp[0] = 0`, everything else unreachable, no
backpointers. -/
def dp_init : DPTable :=
  (fun S => if S = 0 then (0 : WithTop ℚ) else ⊤, fun _ => none)

/-- `DPSolver._run_dp`: process each useful employee once (0/1 knapsack). -/
def run_dp (full : ℕ) (emps : List (Employee × ℕ)) : DPTable :=
  emps.foldl (fun st em => dp_pass full em.1 em.2 st) dp_init

/-- The backpointer walk of `DPSolver._extract_solution`
(`while S != 0 and parent[S] is not None`); the fuel argument dominates the
strictly decreasing state index. -/
def extract_chain (parent : ℕ → Option (Employee × ℕ)) : ℕ → ℕ → List Employee
  | 0, _ => []
  | fuel + 1, S =>
    if S = 0 then []
    else
      match parent S with
      | none => []
      | some (e, prevS) => e :: extract_chain parent fuel prevS

/-- `DPSolver._extract_solution`: invalid sentinel when the full mask is
unreachable, otherwise the backpointer chain (a Python set of employees) at
cost `dp[full_mask]`. -/
def dp_extract_solution (full : ℕ) (st : DPTable) : Solution :=
  if st.1 full = ⊤ then Solution.invalid
  else ⟨pySetOfList (extract_chain st.2 (full + 1) full), st.1 full, true⟩

/-- `DPSolver._get_useful_employees`: employees with non-zero mask, paired
with their masks, in pool order. -/
def get_useful_employees (c : Client) (pool : List Employee) :
    List (Employee × ℕ) :=
  (pool.map (fun e => (e, employee_mask c e))).filter (fun p => decide (0 < p.2))

/-- `DPSolver.solve`: `none` models the `ValueError` raised when there are
more than `MAX_REQUIREMENTS` requirements; otherwise the trivial solution for
zero requirements, the invalid sentinel when no employee covers anything, or
the DP result. -/
def dp_solve (c : Client) (pool : List Employee) : Option Solution :=
  if MAX_REQUIREMENTS < c.requirements.length then none
  else if c.requirements.length = 0 then some ⟨[], ((0 : ℚ) : WithTop ℚ), true⟩
  else
    let useful := get_useful_employees c pool
    if useful = [] then some Solution.invalid
    else
      let full := 2 ^ c.requirements.length - 1
      some (dp_extract_solution full (run_dp full useful))

/-- The dominance test of `DPSolverOptimized._get_useful_employees`:
`pb` dominates `pa` iff `pb`'s mask covers all of `pa`'s, `pb` costs no more,
and `pb` is strictly better (different mask or strictly cheaper). -/
def dominates (pb pa : Employee × ℕ) : Bool :=
  (pa.2 &&& pb.2 == pa.2) && decide (pb.1.salary_per_hour ≤ pa.1.salary_per_hour) &&
    (!(pb.2 == pa.2) || decide (pb.1.salary_per_hour < pa.1.salary_per_hour))

/-- Step 1 of `DPSolverOptimized._get_useful_employees`: the `mask_to_best`
dict, mapping each mask to the cheapest employee carrying it (strict
improvement, so the first cheapest is kept; insertion order preserved). -/
def mask_to_best (all_useful : List (Employee × ℕ)) : List (ℕ × Employee) :=
  all_useful.foldl
    (fun d p =>
      match d.lookup p.2 with
      | none => d ++ [(p.2, p.1)]
      | some cur =>
        if p.1.salary_per_hour < cur.salary_per_hour then
          d.map (fun q => if q.1 = p.2 then (p.2, p.1) else q)
        else d)
    []

/-- `DPSolverOptimized._get_useful_employees`: mask merging followed by
dominance elimination (an entry is compared against every other entry; after
merging all masks are distinct, so "other" is "different pair"). -/
def get_useful_employees_opt (c : Client) (pool : List Employee) :
    List (Employee × ℕ) :=
  let all_useful := (pool.map (fun e => (e, employee_mask c e))).filter
    (fun p => decide (0 < p.2))
  if all_useful.length ≤ 1 then all_useful
  else
    let combined := (mask_to_best all_useful).map (fun q => (q.2, q.1))
    if combined.length ≤ 1 then combined
    else combined.filter (fun pa =>
      ! combined.any (fun pb => !(pb == pa) && dominates pb pa))

/-- `DPSolverOptimized.solve`: identical to `DPSolver.solve` except for the
pre-filtering pass. -/
def dp_solve_opt (c : Client) (pool : List Employee) : Option Solution :=
  if MAX_REQUIREMENTS < c.requirements.length then none
  else if c.requirements.length = 0 then some ⟨[], ((0 : ℚ) : WithTop ℚ), true⟩
  else
    let useful := get_useful_employees_opt c pool
    if useful = [] then some Solution.invalid
    else
      let full := 2 ^ c.requirements.length - 1
      some (dp_extract_solution full (run_dp full useful))

/-! ### Backtracking solver (`solver/backtrack_with_cut.py`) -/

/-- `BacktrackSolver._can_potentially_cover`: the set of uncovered skills
coverable by the employees from position `from_pos` on equals the whole
uncovered key set (trivially true when nothing is uncovered). -/
def can_potentially_cover (c : Client) (empList : List Employee) (pos : ℕ)
    (uncovered : List (Skill × ℕ)) : Bool :=
  let coverable := (uncovered.filter
    (fun r => (empList.drop pos).any (fun emp => covers_requirement emp r.1 r.2))).map
      Prod.fst
  uncovered.all (fun r => r.1 ∈ coverable)

/-- `BacktrackSolver._backtrack`, with the mutable `self.best_solution`
threaded through explicitly: cost-bound prune, record a complete cover and
stop descending, stop past the end of the list, feasibility prune, then the
include branch (only when the employee covers something uncovered, updating
the incumbent) followed by the exclude branch. -/
def backtrack (c : Client) (empList : List Employee) (pos : ℕ)
    (selected : List Employee) (current_cost : ℚ) (best : Solution) : Solution :=
  if best.total_cost ≤ ((current_cost : ℚ) : WithTop ℚ) then best
  else if is_complete_cover c selected then ⟨selected, ((current_cost : ℚ) : WithTop ℚ), true⟩
  else if h : empList.length ≤ pos then best
  else
    let uncovered := get_uncovered_requirements c selected
    if ¬ can_potentially_cover c empList pos uncovered then best
    else
      let e := empList.get ⟨pos, by omega⟩
      let best1 :=
        if can_cover_any_requirement e uncovered then
          backtrack c empList (pos + 1) (selected ++ [e])
            (current_cost + e.salary_per_hour) best
        else best
      backtrack c empList (pos + 1) selected current_cost best1
termination_by empList.length - pos

/-- `BacktrackSolver.solve`. -/
def backtrack_solve (c : Client) (empList : List Employee) : Solution :=
  backtrack c empList 0 [] 0 Solution.invalid

/-! ### Bitmask facts -/

theorem nat_le_or_left (a b : ℕ) : a ≤ a ||| b :=
  Nat.le_of_testBit (fun i hi => by rw [Nat.testBit_or, hi, Bool.true_or])

theorem nat_le_or_right (a b : ℕ) : b ≤ a ||| b :=
  Nat.le_of_testBit (fun i hi => by rw [Nat.testBit_or, hi, Bool.or_true])

/-- `a`'s bits are a subset of `b`'s bits. -/
def maskSubset (a b : ℕ) : Prop := ∀ i, a.testBit i = true → b.testBit i = true

theorem and_eq_iff_maskSubset {a b : ℕ} : a &&& b = a ↔ maskSubset a b := by
  constructor
  · intro h i hi
    have := congrArg (fun x => x.testBit i) h
    simp only [Nat.testBit_and, hi, Bool.true_and] at this
    exact this
  · intro h
    apply Nat.eq_of_testBit_eq
    intro i
    rw [Nat.testBit_and]
    cases ha : a.testBit i
    · simp
    · simp [h i ha]

theorem maskSubset_trans {a b c : ℕ} (h1 : maskSubset a b) (h2 : maskSubset b c) :
    maskSubset a c := fun i hi => h2 i (h1 i hi)

theorem maskSubset_le {a b : ℕ} (h : maskSubset a b) : a ≤ b :=
  Nat.le_of_testBit h

theorem mask_of_flags_eq_bit (b : Bool) (rest : List Bool) :
    mask_of_flags (b :: rest) = Nat.bit b (mask_of_flags rest) := by
  cases b <;> simp [mask_of_flags, Nat.bit] <;> omega

theorem mask_of_flags_testBit (flags : List Bool) (i : ℕ) :
    (mask_of_flags flags).testBit i = (flags.get? i).getD false := by
  induction flags generalizing i with
  | nil => simp [mask_of_flags, Nat.zero_testBit]
  | cons b rest ih =>
    rw [mask_of_flags_eq_bit]
    cases i with
    | zero => rw [Nat.testBit_bit_zero]; rfl
    | succ j => rw [Nat.testBit_bit_succ]; exact ih j

theorem mask_of_flags_lt (flags : List Bool) :
    mask_of_flags flags < 2 ^ flags.length := by
  induction flags with
  | nil => simp [mask_of_flags]
  | cons b rest ih =>
    rw [mask_of_flags_eq_bit]
    have : Nat.bit b (mask_of_flags rest) = 2 * mask_of_flags rest + (if b then 1 else 0) := by
      cases b <;> simp [Nat.bit] <;> omega
    rw [this, List.length_cons, pow_succ]
    cases b <;> simp <;> omega

theorem employee_mask_lt (c : Client) (e : Employee) :
    employee_mask c e < 2 ^ c.requirements.length := by
  have := mask_of_flags_lt (c.requirements.map (fun r => e.has_skill r.1 r.2))
  rwa [List.length_map] at this

theorem employee_mask_testBit (c : Client) (e : Employee) (i : ℕ) :
    (employee_mask c e).testBit i =
      ((c.requirements.get? i).map (fun r => e.has_skill r.1 r.2)).getD false := by
  rw [employee_mask, mask_of_flags_testBit, List.get?_map]

/-- Bitwise union of the masks of a pair list. -/
def mask_or (L : List (Employee × ℕ)) : ℕ :=
  (L.map Prod.snd).foldr (fun a b => a ||| b) 0

/-- Summed salary of a pair list. -/
def pair_cost (L : List (Employee × ℕ)) : ℚ :=
  (L.map (fun p => p.1.salary_per_hour)).sum

theorem mask_or_nil : mask_or [] = 0 := rfl

theorem mask_or_cons (p : Employee × ℕ) (L : List (Employee × ℕ)) :
    mask_or (p :: L) = p.2 ||| mask_or L := rfl

theorem mask_or_append (L₁ L₂ : List (Employee × ℕ)) :
    mask_or (L₁ ++ L₂) = mask_or L₁ ||| mask_or L₂ := by
  induction L₁ with
  | nil => simp [mask_or_nil, mask_or_cons]
  | cons p t ih =>
    simp only [List.cons_append, mask_or_cons, ih]
    rw [Nat.or_assoc]

theorem mask_or_singleton (p : Employee × ℕ) : mask_or [p] = p.2 := by
  rw [mask_or_cons, mask_or_nil, Nat.or_zero]

theorem pair_cost_nil : pair_cost [] = 0 := rfl

theorem pair_cost_cons (p : Employee × ℕ) (L : List (Employee × ℕ)) :
    pair_cost (p :: L) = p.1.salary_per_hour + pair_cost L := by
  simp [pair_cost]

theorem pair_cost_append (L₁ L₂ : List (Employee × ℕ)) :
    pair_cost (L₁ ++ L₂) = pair_cost L₁ + pair_cost L₂ := by
  simp [pair_cost]

theorem pair_cost_nonneg {L : List (Employee × ℕ)}
    (h : ∀ p ∈ L, 0 ≤ p.1.salary_per_hour) : 0 ≤ pair_cost L := by
  apply List.sum_nonneg
  intro x hx
  rw [List.mem_map] at hx
  obtain ⟨p, hp, rfl⟩ := hx
  exact h p hp

theorem mask_or_testBit (L : List (Employee × ℕ)) (i : ℕ) :
    (mask_or L).testBit i = true ↔ ∃ p ∈ L, p.2.testBit i = true := by
  induction L with
  | nil => simp [mask_or_nil, Nat.zero_testBit]
  | cons q t ih =>
    rw [mask_or_cons, Nat.testBit_or, Bool.or_eq_true, ih]
    constructor
    · rintro (h | ⟨p, hp, hpt⟩)
      · exact ⟨q, List.mem_cons_self q t, h⟩
      · exact ⟨p, List.mem_cons_of_mem q hp, hpt⟩
    · rintro ⟨p, hp, hpt⟩
      rcases List.mem_cons.mp hp with rfl | hm
      · exact Or.inl hpt
      · exact Or.inr ⟨p, hm, hpt⟩

theorem mask_or_lt_two_pow {L : List (Employee × ℕ)} {n : ℕ}
    (h : ∀ p ∈ L, p.2 < 2 ^ n) : mask_or L < 2 ^ n := by
  induction L with
  | nil => rw [mask_or_nil]; exact Nat.pos_pow_of_pos n (by omega)
  | cons q t ih =>
    rw [mask_or_cons]
    exact Nat.or_lt_two_pow (h q (List.mem_cons_self q t))
      (ih fun p hp => h p (List.mem_cons_of_mem q hp))

/-! ### DP exactness: `dp[T]` is the minimum cost of a sub-collection of the
processed employees whose masks union to exactly `T` -/

/-- Minimum cost over sub-collections of `cands` whose masks union to `T`. -/
def coverMin (cands : List (Employee × ℕ)) (T : ℕ) : WithTop ℚ :=
  listMin ((cands.sublists.filter (fun L => decide (mask_or L = T))).map
    (fun L => ((pair_cost L : ℚ) : WithTop ℚ)))

theorem coverMin_le {cands L : List (Employee × ℕ)} {T : ℕ}
    (hL : List.Sublist L cands) (hm : mask_or L = T) :
    coverMin cands T ≤ ((pair_cost L : ℚ) : WithTop ℚ) := by
  apply listMin_le_of_mem
  rw [List.mem_map]
  exact ⟨L, List.mem_filter.mpr ⟨List.mem_sublists.mpr hL, decide_eq_true hm⟩, rfl⟩

theorem coverMin_cases (cands : List (Employee × ℕ)) (T : ℕ) :
    coverMin cands T = ⊤ ∨ ∃ L, List.Sublist L cands ∧ mask_or L = T ∧
      coverMin cands T = ((pair_cost L : ℚ) : WithTop ℚ) := by
  rcases listMin_eq_top_or_mem ((cands.sublists.filter
      (fun L => decide (mask_or L = T))).map
    (fun L => ((pair_cost L : ℚ) : WithTop ℚ))) with h | h
  · exact Or.inl h
  · rw [List.mem_map] at h
    obtain ⟨L, hLf, hLe⟩ := h
    rw [List.mem_filter] at hLf
    exact Or.inr ⟨L, List.mem_sublists.mp hLf.1, of_decide_eq_true hLf.2, hLe.symm⟩

/-- Pointwise effect of `dp_step` on the cost table. -/
theorem dp_step_dp (e : Employee) (m : ℕ) (st : DPTable) (S : ℕ)
    (hsal : 0 ≤ e.salary_per_hour) (T : ℕ) :
    (dp_step e m st S).1 T =
      if S ||| m = T then
        min (st.1 T) (st.1 S + ((e.salary_per_hour : ℚ) : WithTop ℚ))
      else st.1 T := by
  unfold dp_step
  by_cases h1 : st.1 S < ⊤
  · rw [if_pos h1]
    simp only
    by_cases h2 : st.1 S + ((e.salary_per_hour : ℚ) : WithTop ℚ) < st.1 (S ||| m)
    · rw [if_pos h2]
      simp only [Function.update_apply]
      by_cases hT : S ||| m = T
      · rw [if_pos hT.symm, if_pos hT]
        exact (min_eq_right (le_of_lt (hT ▸ h2))).symm
      · rw [if_neg (fun h => hT h.symm), if_neg hT]
    · rw [if_neg h2]
      by_cases hT : S ||| m = T
      · rw [if_pos hT, ← hT]
        exact (min_eq_left (not_lt.mp h2)).symm
      · rw [if_neg hT]
  · rw [if_neg h1]
    have h1t : st.1 S = ⊤ := by
      by_contra hne
      exact h1 (lt_top_iff_ne_top.mpr hne)
    by_cases hT : S ||| m = T
    · rw [if_pos hT, h1t]
      rw [WithTop.top_add]
      exact (min_eq_left le_top).symm
    · rw [if_neg hT]

/-- `dp_step` only writes the backpointer at `S ||| m`. -/
theorem dp_step_parent_ne (e : Employee) (m : ℕ) (st : DPTable) (S : ℕ) (T : ℕ)
    (hT : S ||| m ≠ T) : (dp_step e m st S).2 T = st.2 T := by
  unfold dp_step
  by_cases h1 : st.1 S < ⊤
  · rw [if_pos h1]
    simp only
    by_cases h2 : st.1 S + ((e.salary_per_hour : ℚ) : WithTop ℚ) < st.1 (S ||| m)
    · rw [if_pos h2]
      simp only [Function.update_apply]
      rw [if_neg (fun h => hT h.symm)]
    · rw [if_neg h2]
  · rw [if_neg h1]

theorem listMin_filter_single (p : ℕ → Bool) (f : ℕ → WithTop ℚ) (a : ℕ) :
    listMin ((([a] : List ℕ).filter p).map f) = if p a = true then f a else ⊤ := by
  cases h : p a with
  | false => simp [List.filter_cons, h, listMin_nil]
  | true => simp [List.filter_cons, h, listMin_cons, listMin_nil]

/-- The minimum of `dp[S] + cost` over the states `S < k` that reach `T`. -/
def pass_min (dp : ℕ → WithTop ℚ) (m : ℕ) (q : ℚ) (k : ℕ) (T : ℕ) : WithTop ℚ :=
  listMin (((List.range k).filter (fun S => decide (S ||| m = T))).map
    (fun S => dp S + ((q : ℚ) : WithTop ℚ)))

theorem dp_fold_desc (e : Employee) (m : ℕ) (hsal : 0 ≤ e.salary_per_hour) :
    ∀ (k : ℕ) (st : DPTable) (T : ℕ),
      (((List.range (k + 1)).reverse).foldl (dp_step e m) st).1 T =
        min (st.1 T) (pass_min st.1 m e.salary_per_hour (k + 1) T) := by
  intro k
  induction k with
  | zero =>
    intro st T
    have hr : (List.range 1).reverse = [0] := rfl
    rw [hr, List.foldl_cons, List.foldl_nil, dp_step_dp e m st 0 hsal T]
    have hpm : pass_min st.1 m e.salary_per_hour 1 T =
        if 0 ||| m = T then st.1 0 + ((e.salary_per_hour : ℚ) : WithTop ℚ) else ⊤ := by
      unfold pass_min
      have hr1 : List.range 1 = [0] := rfl
      rw [hr1, listMin_filter_single]
      by_cases h0 : 0 ||| m = T
      · rw [if_pos (decide_eq_true h0), if_pos h0]
      · rw [if_neg (by simpa using h0), if_neg h0]
    rw [hpm]
    by_cases h0 : 0 ||| m = T
    · rw [if_pos h0, if_pos h0]
    · rw [if_neg h0, if_neg h0]
      exact (min_eq_left le_top).symm
  | succ n ih =>
    intro st T
    have hsplit : List.range (n + 2) = List.range (n + 1) ++ [n + 1] := List.range_succ (n + 1)
    have hrev : (List.range (n + 2)).reverse = (n + 1) :: (List.range (n + 1)).reverse := by
      rw [hsplit, List.reverse_append, List.reverse_singleton, List.singleton_append]
    rw [hrev, List.foldl_cons]
    rw [ih (dp_step e m st (n + 1)) T]
    have hlow : ∀ S, S < n + 1 → (dp_step e m st (n + 1)).1 S = st.1 S := by
      intro S hS
      rw [dp_step_dp e m st (n + 1) hsal S]
      have : (n + 1) ||| m ≠ S := by
        have := nat_le_or_left (n + 1) m
        omega
      rw [if_neg this]
    have hpm_eq : pass_min (dp_step e m st (n + 1)).1 m e.salary_per_hour (n + 1) T =
        pass_min st.1 m e.salary_per_hour (n + 1) T := by
      unfold pass_min
      congr 1
      apply List.map_congr_left
      intro S hS
      rw [List.mem_filter, List.mem_range] at hS
      rw [hlow S hS.1]
    rw [hpm_eq]
    have hpm_split : pass_min st.1 m e.salary_per_hour (n + 2) T =
        min (pass_min st.1 m e.salary_per_hour (n + 1) T)
          (if (n + 1) ||| m = T then
            st.1 (n + 1) + ((e.salary_per_hour : ℚ) : WithTop ℚ) else ⊤) := by
      unfold pass_min
      rw [hsplit, List.filter_append, List.map_append, listMin_append]
      congr 1
      rw [listMin_filter_single]
      by_cases hc : (n + 1) ||| m = T
      · rw [if_pos (decide_eq_true hc), if_pos hc]
      · rw [if_neg (by simpa using hc), if_neg hc]
    rw [hpm_split, dp_step_dp e m st (n + 1) hsal T]
    by_cases hc : (n + 1) ||| m = T
    · rw [if_pos hc, if_pos hc]
      rw [min_comm (st.1 T) (st.1 (n + 1) + ((e.salary_per_hour : ℚ) : WithTop ℚ)),
        min_assoc]
      rw [min_comm (pass_min st.1 m e.salary_per_hour (n + 1) T)
        (st.1 (n + 1) + ((e.salary_per_hour : ℚ) : WithTop ℚ))]
      rw [← min_assoc, min_comm (st.1 (n + 1) + ((e.salary_per_hour : ℚ) : WithTop ℚ)) (st.1 T),
        min_assoc]
    · rw [if_neg hc, if_neg hc]
      congr 1
      exact (min_eq_left le_top).symm

/-- The net effect of one employee pass on the cost table. -/
theorem dp_pass_dp (full : ℕ) (e : Employee) (m : ℕ) (st : DPTable)
    (hsal : 0 ≤ e.salary_per_hour) (T : ℕ) :
    (dp_pass full e m st).1 T =
      min (st.1 T) (pass_min st.1 m e.salary_per_hour (full + 1) T) :=
  dp_fold_desc e m hsal full st T

theorem coverMin_nil (T : ℕ) :
    coverMin [] T = if T = 0 then ((0 : ℚ) : WithTop ℚ) else ⊤ := by
  unfold coverMin
  rw [List.sublists_nil]
  by_cases hT : T = 0
  · subst hT
    rw [if_pos rfl]
    rw [List.filter_cons_of_pos (by simp [mask_or_nil]), List.filter_nil,
      List.map_cons, List.map_nil, listMin_cons, listMin_nil]
    rw [pair_cost_nil]
    exact min_eq_left le_top
  · rw [if_neg hT]
    rw [List.filter_cons_of_neg (by simp [mask_or_nil]; omega), List.filter_nil,
      List.map_nil, listMin_nil]

/-- The concat recurrence for `coverMin`. -/
theorem coverMin_concat (n : ℕ) (l : List (Employee × ℕ)) (p : Employee × ℕ)
    (hmask : ∀ q ∈ l, q.2 < 2 ^ n) (T : ℕ) :
    coverMin (l ++ [p]) T =
      min (coverMin l T)
        (pass_min (coverMin l) p.2 p.1.salary_per_hour (2 ^ n) T) := by
  apply le_antisymm
  · apply le_min
    · rcases coverMin_cases l T with h | ⟨L, hL, hm, he⟩
      · rw [h]; exact le_top
      · rw [he]
        exact coverMin_le (hL.trans (List.sublist_append_left l [p])) hm
    · apply le_listMin
      intro x hx
      rw [List.mem_map] at hx
      obtain ⟨S, hSf, rfl⟩ := hx
      rw [List.mem_filter, List.mem_range] at hSf
      obtain ⟨hSr, hSp⟩ := hSf
      have hSor : S ||| p.2 = T := of_decide_eq_true hSp
      rcases coverMin_cases l S with h | ⟨L, hL, hm, he⟩
      · rw [h, top_add]; exact le_top
      · rw [he, ← WithTop.coe_add]
        have hcost : pair_cost (L ++ [p]) = pair_cost L + p.1.salary_per_hour := by
          rw [pair_cost_append, pair_cost_cons, pair_cost_nil, add_zero]
        have hmor : mask_or (L ++ [p]) = T := by
          rw [mask_or_append, mask_or_singleton, hm, hSor]
        have hsubl : List.Sublist (L ++ [p]) (l ++ [p]) :=
          List.Sublist.append hL (List.Sublist.refl [p])
        rw [← hcost]
        exact coverMin_le hsubl hmor
  · rcases coverMin_cases (l ++ [p]) T with h | ⟨L, hL, hm, he⟩
    · rw [h]; exact le_top
    · rw [he]
      rw [List.sublist_append_iff] at hL
      obtain ⟨L1, L2, rfl, hL1, hL2⟩ := hL
      rw [List.sublist_singleton] at hL2
      rcases hL2 with rfl | rfl
      · rw [List.append_nil] at hm ⊢
        exact le_trans (min_le_left _ _) (coverMin_le hL1 hm)
      · refine le_trans (min_le_right _ _) ?_
        have hS : mask_or L1 < 2 ^ n :=
          mask_or_lt_two_pow (fun q hq => hmask q (hL1.subset hq))
        have hSor : mask_or L1 ||| p.2 = T := by
          rw [← hm, mask_or_append, mask_or_singleton]
        have hmem : coverMin l (mask_or L1) + ((p.1.salary_per_hour : ℚ) : WithTop ℚ) ∈
            (((List.range (2 ^ n)).filter (fun S => decide (S ||| p.2 = T))).map
              (fun S => coverMin l S + ((p.1.salary_per_hour : ℚ) : WithTop ℚ))) := by
          rw [List.mem_map]
          exact ⟨mask_or L1, List.mem_filter.mpr
            ⟨List.mem_range.mpr hS, decide_eq_true hSor⟩, rfl⟩
        refine le_trans (listMin_le_of_mem hmem) ?_
        have hcost : pair_cost (L1 ++ [p]) = pair_cost L1 + p.1.salary_per_hour := by
          rw [pair_cost_append, pair_cost_cons, pair_cost_nil, add_zero]
        rw [hcost, WithTop.coe_add]
        exact add_le_add_right (coverMin_le hL1 rfl) _

/-- Exactness of the DP table: after processing `cands`, `dp[T]` is the
minimum cost of a sub-collection of `cands` whose masks union to `T`. -/
theorem run_dp_dp (n : ℕ) (cands : List (Employee × ℕ))
    (hsal : ∀ p ∈ cands, 0 ≤ p.1.salary_per_hour)
    (hmask : ∀ p ∈ cands, p.2 < 2 ^ n) (T : ℕ) :
    (run_dp (2 ^ n - 1) cands).1 T = coverMin cands T := by
  induction cands using List.reverseRecOn generalizing T with
  | nil =>
    rw [coverMin_nil]
    unfold run_dp dp_init
    simp only [List.foldl_nil]
    by_cases hT : T = 0
    · rw [if_pos hT, if_pos hT]; rfl
    · rw [if_neg hT, if_neg hT]
  | append_singleton l p ih =>
    have hsal' : ∀ q ∈ l, 0 ≤ q.1.salary_per_hour :=
      fun q hq => hsal q (List.mem_append.mpr (Or.inl hq))
    have hmask' : ∀ q ∈ l, q.2 < 2 ^ n :=
      fun q hq => hmask q (List.mem_append.mpr (Or.inl hq))
    have hrun : run_dp (2 ^ n - 1) (l ++ [p]) =
        dp_pass (2 ^ n - 1) p.1 p.2 (run_dp (2 ^ n - 1) l) := by
      unfold run_dp
      rw [List.foldl_append, List.foldl_cons, List.foldl_nil]
    rw [hrun]
    have hfull : (2 ^ n - 1) + 1 = 2 ^ n := Nat.sub_add_cancel Nat.one_le_two_pow
    have hpsal : 0 ≤ p.1.salary_per_hour :=
      hsal p (List.mem_append.mpr (Or.inr (List.mem_singleton_self p)))
    rw [dp_pass_dp (2 ^ n - 1) p.1 p.2 (run_dp (2 ^ n - 1) l) hpsal T, hfull]
    rw [coverMin_concat n l p hmask' T]
    congr 1
    · exact ih hsal' hmask' T
    · unfold pass_min
      congr 1
      apply List.map_congr_left
      intro S hS
      rw [ih hsal' hmask' S]

/-! ### Backpointer invariants and solution extraction -/

/-- Invariant tying the backpointer table to the cost table: `dp[0]` stays 0,
a finite `dp[T]` (for `T ≠ 0`) has a backpointer, and a backpointer
`(e, S)` at `T` records an employee pair of `cands` reaching `T` from the
strictly smaller state `S` at a cost accounted for by `dp[T]`. -/
def DPInv (cands : List (Employee × ℕ)) (st : DPTable) : Prop :=
  st.1 0 = ((0 : ℚ) : WithTop ℚ) ∧
  (∀ T, T ≠ 0 → st.2 T = none → st.1 T = ⊤) ∧
  (∀ T e S, st.2 T = some (e, S) →
    ∃ m, (e, m) ∈ cands ∧ S ||| m = T ∧ S < T ∧
      st.1 S + ((e.salary_per_hour : ℚ) : WithTop ℚ) ≤ st.1 T)

theorem dp_init_inv (cands : List (Employee × ℕ)) : DPInv cands dp_init := by
  refine ⟨rfl, fun T hT _ => ?_, fun T e S h => ?_⟩
  · unfold dp_init
    simp only
    rw [if_neg hT]
  · cases h

/-- `dp_step` either leaves the state unchanged or performs the recorded
update. -/
theorem dp_step_cases (e : Employee) (m : ℕ) (st : DPTable) (S : ℕ) :
    dp_step e m st S = st ∨
      (st.1 S < ⊤ ∧
        st.1 S + ((e.salary_per_hour : ℚ) : WithTop ℚ) < st.1 (S ||| m) ∧
        dp_step e m st S =
          (Function.update st.1 (S ||| m)
              (st.1 S + ((e.salary_per_hour : ℚ) : WithTop ℚ)),
            Function.update st.2 (S ||| m) (some (e, S)))) := by
  unfold dp_step
  by_cases h1 : st.1 S < ⊤
  · rw [if_pos h1]
    simp only
    by_cases h2 : st.1 S + ((e.salary_per_hour : ℚ) : WithTop ℚ) < st.1 (S ||| m)
    · rw [if_pos h2]
      exact Or.inr ⟨h1, h2, rfl⟩
    · rw [if_neg h2]
      exact Or.inl rfl
  · rw [if_neg h1]
    exact Or.inl rfl

/-- `dp_step` never increases a cost entry. -/
theorem dp_step_mono (e : Employee) (m : ℕ) (st : DPTable) (S : ℕ)
    (hsal : 0 ≤ e.salary_per_hour) (T : ℕ) :
    (dp_step e m st S).1 T ≤ st.1 T := by
  rw [dp_step_dp e m st S hsal T]
  by_cases hT : S ||| m = T
  · rw [if_pos hT]; exact min_le_left _ _
  · rw [if_neg hT]

theorem with_top_le_add_coe {a : WithTop ℚ} {q : ℚ} (hq : 0 ≤ q) :
    a ≤ a + ((q : ℚ) : WithTop ℚ) := by
  conv_lhs => rw [← add_zero a]
  apply add_le_add_left
  rw [← WithTop.coe_zero]
  exact WithTop.coe_le_coe.mpr hq

theorem dp_step_inv (cands : List (Employee × ℕ)) (e : Employee) (m : ℕ)
    (hmem : (e, m) ∈ cands) (hm : m ≠ 0) (hsal : 0 ≤ e.salary_per_hour)
    (st : DPTable) (S0 : ℕ) (hInv : DPInv cands st) :
    DPInv cands (dp_step e m st S0) := by
  obtain ⟨h0, hnone, hsome⟩ := hInv
  rcases dp_step_cases e m st S0 with heq | ⟨h1, h2, heq⟩
  · rw [heq]; exact ⟨h0, hnone, hsome⟩
  · have hT0 : S0 ||| m ≠ 0 := by
      have h := nat_le_or_right S0 m
      omega
    have hS0ne : S0 ≠ S0 ||| m := by
      intro hcontra
      rw [← hcontra] at h2
      exact absurd h2 (not_lt.mpr (with_top_le_add_coe hsal))
    rw [heq]
    refine ⟨?_, ?_, ?_⟩
    · simp only [Function.update_apply]
      rw [if_neg (fun h => hT0 h.symm)]
      exact h0
    · intro T hT hpar
      simp only [Function.update_apply] at hpar ⊢
      by_cases hTT : T = S0 ||| m
      · rw [if_pos hTT] at hpar; cases hpar
      · rw [if_neg hTT] at hpar
        rw [if_neg hTT]
        exact hnone T hT hpar
    · intro T d S hpar
      simp only [Function.update_apply] at hpar ⊢
      by_cases hTT : T = S0 ||| m
      · rw [if_pos hTT] at hpar
        injection hpar with hpair
        injection hpair with h_de h_sS
        subst h_de
        subst h_sS
        refine ⟨m, hmem, hTT.symm, ?_, ?_⟩
        · subst hTT
          exact lt_of_le_of_ne (nat_le_or_left S0 m) hS0ne
        · rw [if_neg hS0ne, if_pos hTT]
      · rw [if_neg hTT] at hpar
        obtain ⟨m2, hmem2, hor2, hlt2, hcost2⟩ := hsome T d S hpar
        refine ⟨m2, hmem2, hor2, hlt2, ?_⟩
        rw [if_neg hTT]
        by_cases hSS : S = S0 ||| m
        · rw [if_pos hSS]
          refine le_trans (add_le_add_right ?_ _) hcost2
          rw [← hSS] at h2
          exact le_of_lt h2
        · rw [if_neg hSS]
          exact hcost2

theorem dp_fold_inv (cands : List (Employee × ℕ)) (e : Employee) (m : ℕ)
    (hmem : (e, m) ∈ cands) (hm : m ≠ 0) (hsal : 0 ≤ e.salary_per_hour)
    (idxs : List ℕ) (st : DPTable) (hInv : DPInv cands st) :
    DPInv cands (idxs.foldl (dp_step e m) st) := by
  induction idxs generalizing st with
  | nil => exact hInv
  | cons i t ih =>
    rw [List.foldl_cons]
    exact ih (dp_step e m st i) (dp_step_inv cands e m hmem hm hsal st i hInv)

theorem run_dp_inv (full : ℕ) (cands : List (Employee × ℕ))
    (hm : ∀ p ∈ cands, p.2 ≠ 0)
    (hsal : ∀ p ∈ cands, 0 ≤ p.1.salary_per_hour) :
    DPInv cands (run_dp full cands) := by
  suffices h : ∀ (sub : List (Employee × ℕ)) (st : DPTable),
      (∀ p ∈ sub, p ∈ cands) → DPInv cands st →
      DPInv cands (sub.foldl (fun st em => dp_pass full em.1 em.2 st) st) by
    exact h cands dp_init (fun p hp => hp) (dp_init_inv cands)
  intro sub
  induction sub with
  | nil => intro st _ hInv; exact hInv
  | cons p t ih =>
    intro st hsub hInv
    rw [List.foldl_cons]
    apply ih _ (fun q hq => hsub q (List.mem_cons_of_mem p hq))
    have hpm : p ∈ cands := hsub p (List.mem_cons_self p t)
    unfold dp_pass
    exact dp_fold_inv cands p.1 p.2 (by simpa using hpm) (hm p hpm)
      (hsal p hpm) _ st hInv

theorem calculate_cost_cons (e : Employee) (l : List Employee) :
    calculate_cost (e :: l) = e.salary_per_hour + calculate_cost l := by
  simp [calculate_cost]

/-- Walking the backpointer chain from a reachable state `S` yields employees
of `cands` whose total cost is bounded by `dp[S]` and whose masks jointly
cover every bit of `S`. -/
theorem extract_chain_spec (cands : List (Employee × ℕ)) (st : DPTable)
    (hInv : DPInv cands st) :
    ∀ (fuel S : ℕ), S ≤ fuel → st.1 S < ⊤ →
      ((calculate_cost (extract_chain st.2 fuel S) : ℚ) : WithTop ℚ) ≤ st.1 S ∧
      (∀ i, S.testBit i = true →
        ∃ e ∈ extract_chain st.2 fuel S, ∃ m, (e, m) ∈ cands ∧ m.testBit i = true) ∧
      (∀ e ∈ extract_chain st.2 fuel S, ∃ m, (e, m) ∈ cands) := by
  obtain ⟨h0, hnone, hsome⟩ := hInv
  intro fuel
  induction fuel with
  | zero =>
    intro S hS _
    have hS0 : S = 0 := Nat.le_zero.mp hS
    subst hS0
    refine ⟨?_, ?_, ?_⟩
    · show ((calculate_cost [] : ℚ) : WithTop ℚ) ≤ st.1 0
      rw [h0]
      simp [calculate_cost]
    · intro i hi
      rw [Nat.zero_testBit] at hi
      cases hi
    · intro e he
      cases he
  | succ fuel ih =>
    intro S hS hfin
    by_cases hS0 : S = 0
    · subst hS0
      have hch : extract_chain st.2 (fuel + 1) 0 = [] := by
        unfold extract_chain
        rw [if_pos rfl]
      rw [hch]
      refine ⟨?_, ?_, ?_⟩
      · rw [h0]
        simp [calculate_cost]
      · intro i hi
        rw [Nat.zero_testBit] at hi
        cases hi
      · intro e he
        cases he
    · cases hpar : st.2 S with
      | none =>
        exact absurd (hnone S hS0 hpar) (ne_top_of_lt hfin)
      | some pr =>
        obtain ⟨e, S'⟩ := pr
        have hch : extract_chain st.2 (fuel + 1) S = e :: extract_chain st.2 fuel S' := by
          conv_lhs => unfold extract_chain
          rw [if_neg hS0, hpar]
        obtain ⟨m, hmem, hor, hlt, hcost⟩ := hsome S e S' hpar
        have hfin' : st.1 S' < ⊤ := by
          rcases lt_or_ge (st.1 S') ⊤ with h | h
          · exact h
          · have htop : st.1 S' = ⊤ := top_le_iff.mp h
            rw [htop, top_add] at hcost
            exact absurd (lt_of_le_of_lt hcost hfin) (lt_irrefl ⊤)
        have hSfuel : S' ≤ fuel := by omega
        obtain ⟨ihc, ihb, ihm⟩ := ih S' hSfuel hfin'
        rw [hch]
        refine ⟨?_, ?_, ?_⟩
        · rw [calculate_cost_cons, WithTop.coe_add]
          calc ((e.salary_per_hour : ℚ) : WithTop ℚ) +
                ((calculate_cost (extract_chain st.2 fuel S') : ℚ) : WithTop ℚ)
              ≤ ((e.salary_per_hour : ℚ) : WithTop ℚ) + st.1 S' := add_le_add_left ihc _
            _ = st.1 S' + ((e.salary_per_hour : ℚ) : WithTop ℚ) := add_comm _ _
            _ ≤ st.1 S := hcost
        · intro i hi
          rw [← hor, Nat.testBit_or, Bool.or_eq_true] at hi
          rcases hi with hi | hi
          · obtain ⟨d, hd, m2, hm2, hbit⟩ := ihb i hi
            exact ⟨d, List.mem_cons_of_mem e hd, m2, hm2, hbit⟩
          · exact ⟨e, List.mem_cons_self e _, m, hmem, hi⟩
        · intro d hd
          rcases List.mem_cons.mp hd with rfl | hd2
          · exact ⟨m, hmem⟩
          · exact ihm d hd2

/-! ### Python-set helper lemmas -/

theorem pySet_fold_subset (l acc : List Employee) (x : Employee)
    (h : x ∈ l.foldl
      (fun acc e => if acc.any (fun x => x.pyEq e) then acc else acc ++ [e]) acc) :
    x ∈ acc ∨ x ∈ l := by
  induction l generalizing acc with
  | nil => exact Or.inl h
  | cons e t ih =>
    rw [List.foldl_cons] at h
    rcases ih _ h with hx | hx
    · by_cases hc : acc.any (fun x => x.pyEq e) = true
      · rw [if_pos hc] at hx
        exact Or.inl hx
      · rw [if_neg hc] at hx
        rcases List.mem_append.mp hx with hx2 | hx2
        · exact Or.inl hx2
        · rw [List.mem_singleton] at hx2
          exact Or.inr (hx2 ▸ List.mem_cons_self e t)
    · exact Or.inr (List.mem_cons_of_mem e hx)

theorem pySet_subset (l : List Employee) (x : Employee) (h : x ∈ pySetOfList l) :
    x ∈ l := by
  rcases pySet_fold_subset l [] x h with hx | hx
  · cases hx
  · exact hx

theorem pySet_fold_mem (l : List Employee) :
    ∀ (acc : List Employee),
      (∀ a, (a ∈ acc ∨ a ∈ l) → ∀ b, (b ∈ acc ∨ b ∈ l) → a.id = b.id → a = b) →
      ∀ x, (x ∈ acc ∨ x ∈ l) →
      x ∈ l.foldl
        (fun acc e => if acc.any (fun x => x.pyEq e) then acc else acc ++ [e]) acc := by
  induction l with
  | nil =>
    intro acc _ x hx
    rcases hx with hx | hx
    · exact hx
    · cases hx
  | cons e t ih =>
    intro acc huniq x hx
    rw [List.foldl_cons]
    have hsup : ∀ y, y ∈ (if acc.any (fun x => x.pyEq e) then acc else acc ++ [e]) ∨ y ∈ t →
        y ∈ acc ∨ y ∈ e :: t := by
      intro y hy
      rcases hy with hy | hy
      · by_cases hc : acc.any (fun x => x.pyEq e) = true
        · rw [if_pos hc] at hy; exact Or.inl hy
        · rw [if_neg hc] at hy
          rcases List.mem_append.mp hy with hy2 | hy2
          · exact Or.inl hy2
          · rw [List.mem_singleton] at hy2
            exact Or.inr (hy2 ▸ List.mem_cons_self e t)
      · exact Or.inr (List.mem_cons_of_mem e hy)
    apply ih _ (fun a ha b hb => huniq a (hsup a ha) b (hsup b hb))
    rcases hx with hx | hx
    · left
      by_cases hc : acc.any (fun x => x.pyEq e) = true
      · rw [if_pos hc]; exact hx
      · rw [if_neg hc]; exact List.mem_append.mpr (Or.inl hx)
    · rcases List.mem_cons.mp hx with hxe | hx2
      · left
        by_cases hc : acc.any (fun y => y.pyEq e) = true
        · rw [if_pos hc]
          rw [List.any_eq_true] at hc
          obtain ⟨a, ha, hae⟩ := hc
          have haeq : a.id = e.id := by
            unfold Employee.pyEq at hae
            exact beq_iff_eq.mp hae
          have hax : a = e := huniq a (Or.inl ha) e (Or.inr (List.mem_cons_self e t)) haeq
          rw [hxe]
          exact hax ▸ ha
        · rw [if_neg hc]
          rw [hxe]
          exact List.mem_append.mpr (Or.inr (List.mem_singleton_self e))
      · exact Or.inr hx2

theorem pySet_mem (l : List Employee)
    (huniq : ∀ a ∈ l, ∀ b ∈ l, a.id = b.id → a = b) (x : Employee) (hx : x ∈ l) :
    x ∈ pySetOfList l := by
  apply pySet_fold_mem l []
  · intro a ha b hb heq
    rcases ha with ha | ha
    · cases ha
    · rcases hb with hb | hb
      · cases hb
      · exact huniq a ha b hb heq
  · exact Or.inr hx

theorem calculate_cost_sublist_le {l₁ l₂ : List Employee}
    (h : List.Sublist l₁ l₂) (hsal : ∀ e ∈ l₂, 0 ≤ e.salary_per_hour) :
    calculate_cost l₁ ≤ calculate_cost l₂ := by
  induction h with
  | slnil => exact le_refl _
  | cons a h ih =>
    rw [calculate_cost_cons]
    have ha := hsal a (List.mem_cons_self a _)
    have hrest := ih (fun e he => hsal e (List.mem_cons_of_mem a he))
    linarith
  | cons₂ a h ih =>
    rw [calculate_cost_cons, calculate_cost_cons]
    have hrest := ih (fun e he => hsal e (List.mem_cons_of_mem a he))
    linarith

theorem calculate_cost_perm {l₁ l₂ : List Employee} (h : l₁.Perm l₂) :
    calculate_cost l₁ = calculate_cost l₂ :=
  List.Perm.sum_eq (h.map (fun e => e.salary_per_hour))

theorem calculate_cost_subperm_le {l₁ l₂ : List Employee}
    (h : List.Subperm l₁ l₂) (hsal : ∀ e ∈ l₂, 0 ≤ e.salary_per_hour) :
    calculate_cost l₁ ≤ calculate_cost l₂ := by
  obtain ⟨l₀, hperm, hsub⟩ := h
  rw [← calculate_cost_perm hperm]
  exact calculate_cost_sublist_le hsub hsal

/-! ### From masks back to coverage -/

theorem pair_cost_map_pair (c : Client) (l : List Employee) :
    pair_cost (l.map (fun e => (e, employee_mask c e))) = calculate_cost l := by
  simp [pair_cost, calculate_cost, List.map_map]
  rfl

theorem pair_cost_perm {l₁ l₂ : List (Employee × ℕ)} (h : l₁.Perm l₂) :
    pair_cost l₁ = pair_cost l₂ :=
  List.Perm.sum_eq (h.map (fun p => p.1.salary_per_hour))

theorem mask_or_perm {l₁ l₂ : List (Employee × ℕ)} (h : l₁.Perm l₂) :
    mask_or l₁ = mask_or l₂ := by
  apply Nat.eq_of_testBit_eq
  intro i
  rw [Bool.eq_iff_iff, mask_or_testBit, mask_or_testBit]
  constructor
  · rintro ⟨p, hp, hbit⟩; exact ⟨p, h.mem_iff.mp hp, hbit⟩
  · rintro ⟨p, hp, hbit⟩; exact ⟨p, h.mem_iff.mpr hp, hbit⟩

theorem testBit_high_false {x n i : ℕ} (hx : x < 2 ^ n) (hi : n ≤ i) :
    x.testBit i = false :=
  Nat.testBit_lt_two_pow (lt_of_lt_of_le hx (Nat.pow_le_pow_right (by omega) hi))

/-- The pair masks of a selection union to the full mask iff the selection
covers every requirement. -/
theorem maskor_pairs_iff (c : Client) (L : List Employee) :
    mask_or (L.map (fun e => (e, employee_mask c e))) = 2 ^ c.requirements.length - 1 ↔
      CoversProp c L := by
  constructor
  · intro h r hr
    obtain ⟨i, hi⟩ := List.mem_iff_get?.mp hr
    have hlen : i < c.requirements.length := by
      obtain ⟨hlt, _⟩ := List.get?_eq_some.mp hi
      exact hlt
    have hfull : (2 ^ c.requirements.length - 1).testBit i = true := by
      rw [Nat.testBit_two_pow_sub_one]
      exact decide_eq_true hlen
    rw [← h] at hfull
    rw [mask_or_testBit] at hfull
    obtain ⟨p, hp, hbit⟩ := hfull
    rw [List.mem_map] at hp
    obtain ⟨e, he, rfl⟩ := hp
    refine ⟨e, he, ?_⟩
    rw [employee_mask_testBit, hi] at hbit
    exact hbit
  · intro h
    apply Nat.eq_of_testBit_eq
    intro i
    by_cases hlen : i < c.requirements.length
    · rw [Nat.testBit_two_pow_sub_one]
      rw [Bool.eq_iff_iff, mask_or_testBit]
      constructor
      · intro _; exact decide_eq_true hlen
      · intro _
        have hget : c.requirements.get? i = some (c.requirements.get ⟨i, hlen⟩) :=
          List.get?_eq_get hlen
        obtain ⟨e, he, hcov⟩ := h (c.requirements.get ⟨i, hlen⟩)
          (List.get_mem c.requirements i hlen)
        refine ⟨(e, employee_mask c e), List.mem_map_of_mem _ he, ?_⟩
        rw [employee_mask_testBit, hget]
        exact hcov
    · have h1 : mask_or (L.map (fun e => (e, employee_mask c e))) <
          2 ^ c.requirements.length := by
        apply mask_or_lt_two_pow
        intro p hp
        rw [List.mem_map] at hp
        obtain ⟨e, he, rfl⟩ := hp
        exact employee_mask_lt c e
      rw [testBit_high_false h1 (by omega),
        testBit_high_false (by omega : 2 ^ c.requirements.length - 1 <
          2 ^ c.requirements.length) (by omega)]

theorem mem_get_useful (c : Client) (pool : List Employee) (p : Employee × ℕ) :
    p ∈ get_useful_employees c pool ↔
      p.1 ∈ pool ∧ p.2 = employee_mask c p.1 ∧ 0 < p.2 := by
  unfold get_useful_employees
  rw [List.mem_filter, List.mem_map]
  constructor
  · rintro ⟨⟨e, he, rfl⟩, hpos⟩
    exact ⟨he, rfl, of_decide_eq_true hpos⟩
  · rintro ⟨h1, h2, h3⟩
    refine ⟨⟨p.1, h1, ?_⟩, decide_eq_true h3⟩
    rw [← h2]

/-- Dropping the zero-mask pairs changes neither the mask union (or with zero)
nor increases the cost. -/
theorem mask_or_filter_pos (P : List (Employee × ℕ)) :
    mask_or (P.filter (fun p => decide (0 < p.2))) = mask_or P := by
  induction P with
  | nil => rfl
  | cons p t ih =>
    rw [List.filter_cons]
    by_cases hp : 0 < p.2
    · rw [if_pos (decide_eq_true hp), mask_or_cons, mask_or_cons, ih]
    · rw [if_neg (by simpa using hp), mask_or_cons, ih]
      have : p.2 = 0 := by omega
      rw [this, Nat.zero_or]

theorem pair_cost_filter_le {P : List (Employee × ℕ)}
    (hsal : ∀ p ∈ P, 0 ≤ p.1.salary_per_hour) (pr : Employee × ℕ → Bool) :
    pair_cost (P.filter pr) ≤ pair_cost P := by
  induction P with
  | nil => exact le_refl _
  | cons p t ih =>
    have hrest := ih (fun q hq => hsal q (List.mem_cons_of_mem p hq))
    have hp := hsal p (List.mem_cons_self p t)
    rw [List.filter_cons, pair_cost_cons]
    by_cases hpr : pr p = true
    · rw [if_pos hpr, pair_cost_cons]
      linarith
    · rw [if_neg hpr]
      linarith

/-- The DP over the useful employees optimizes exactly the specification-level
minimum cover cost. -/
theorem coverMin_useful_eq (c : Client) (pool : List Employee)
    (hkeys : (c.requirements.map Prod.fst).Nodup)
    (hsal : ∀ e ∈ pool, 0 ≤ e.salary_per_hour) :
    coverMin (get_useful_employees c pool) (2 ^ c.requirements.length - 1) =
      minCoverCost c pool := by
  apply le_antisymm
  · rcases listMin_eq_top_or_mem ((pool.sublists.filter
        (fun L => is_complete_cover c L)).map
      (fun L => ((calculate_cost L : ℚ) : WithTop ℚ))) with h | h
    · unfold minCoverCost
      rw [h]
      exact le_top
    · rw [List.mem_map] at h
      obtain ⟨E, hEf, hEe⟩ := h
      rw [List.mem_filter] at hEf
      obtain ⟨hEs, hEc⟩ := hEf
      have hEsub : List.Sublist E pool := List.mem_sublists.mp hEs
      have hcov : CoversProp c E := (is_complete_cover_iff c E hkeys).mp hEc
      set P := E.map (fun e => (e, employee_mask c e)) with hP
      have hPm : mask_or P = 2 ^ c.requirements.length - 1 :=
        (maskor_pairs_iff c E).mpr hcov
      set P' := P.filter (fun p => decide (0 < p.2)) with hP'
      have hP'sub : List.Sublist P' (get_useful_employees c pool) := by
        unfold get_useful_employees
        exact List.Sublist.filter _ (List.Sublist.map _ hEsub)
      have hP'm : mask_or P' = 2 ^ c.requirements.length - 1 := by
        rw [hP', mask_or_filter_pos, hPm]
      have hsalP : ∀ p ∈ P, 0 ≤ p.1.salary_per_hour := by
        intro p hp
        rw [hP, List.mem_map] at hp
        obtain ⟨e, he, rfl⟩ := hp
        exact hsal e (hEsub.subset he)
      calc coverMin (get_useful_employees c pool) (2 ^ c.requirements.length - 1)
          ≤ ((pair_cost P' : ℚ) : WithTop ℚ) := coverMin_le hP'sub hP'm
        _ ≤ ((pair_cost P : ℚ) : WithTop ℚ) :=
            WithTop.coe_le_coe.mpr (pair_cost_filter_le hsalP _)
        _ = ((calculate_cost E : ℚ) : WithTop ℚ) := by rw [hP, pair_cost_map_pair]
        _ = minCoverCost c pool := hEe
  · rcases coverMin_cases (get_useful_employees c pool)
        (2 ^ c.requirements.length - 1) with h | ⟨L, hL, hm, he⟩
    · rw [h]
      exact le_top
    · rw [he]
      have hLpairs : ∀ p ∈ L, p.2 = employee_mask c p.1 ∧ p.1 ∈ pool := by
        intro p hp
        have hmem := (mem_get_useful c pool p).mp (hL.subset hp)
        exact ⟨hmem.2.1, hmem.1⟩
      have hLeq : (L.map Prod.fst).map (fun e => (e, employee_mask c e)) = L := by
        rw [List.map_map]
        conv_rhs => rw [← List.map_id L]
        apply List.map_congr_left
        intro p hp
        have hp2 := (hLpairs p hp).1
        show (p.1, employee_mask c p.1) = p
        rw [← hp2]
      have hEsub : List.Sublist (L.map Prod.fst) pool := by
        have h1 : List.Sublist L (pool.map (fun e => (e, employee_mask c e))) := by
          apply hL.trans
          unfold get_useful_employees
          exact List.filter_sublist _
        have h2 := List.Sublist.map Prod.fst h1
        rw [List.map_map] at h2
        have h3 : (Prod.fst ∘ fun e : Employee => (e, employee_mask c e)) = id := rfl
        rw [h3, List.map_id] at h2
        exact h2
      have hcov : CoversProp c (L.map Prod.fst) := by
        apply (maskor_pairs_iff c (L.map Prod.fst)).mp
        rw [hLeq, hm]
      have hmem : ((calculate_cost (L.map Prod.fst) : ℚ) : WithTop ℚ) ∈
          ((pool.sublists.filter (fun L => is_complete_cover c L)).map
            (fun L => ((calculate_cost L : ℚ) : WithTop ℚ))) := by
        rw [List.mem_map]
        refine ⟨L.map Prod.fst, List.mem_filter.mpr
          ⟨List.mem_sublists.mpr hEsub,
            (is_complete_cover_iff c (L.map Prod.fst) hkeys).mpr hcov⟩, rfl⟩
      refine le_trans (listMin_le_of_mem hmem) ?_
      rw [← pair_cost_map_pair c (L.map Prod.fst), hLeq]

/-- Combined specification of `_run_dp` + `_extract_solution` over a
well-formed useful-employee list: either the full mask is unreachable and the
invalid sentinel is returned (no cover exists among `cands`), or the returned
solution is valid, its cost is the exact optimum over `cands`, the cost
equals the summed salary of the returned employee set, and the set covers
every requirement. -/
theorem dp_extract_spec (c : Client) (pool : List Employee)
    (cands : List (Employee × ℕ))
    (hwf : ∀ p ∈ cands, p.1 ∈ pool ∧ p.2 = employee_mask c p.1 ∧ 0 < p.2)
    (hsal : ∀ e ∈ pool, 0 ≤ e.salary_per_hour)
    (hids : (pool.map Employee.id).Nodup) :
    (dp_extract_solution (2 ^ c.requirements.length - 1)
        (run_dp (2 ^ c.requirements.length - 1) cands) = Solution.invalid ∧
      coverMin cands (2 ^ c.requirements.length - 1) = ⊤) ∨
    ((dp_extract_solution (2 ^ c.requirements.length - 1)
        (run_dp (2 ^ c.requirements.length - 1) cands)).is_valid = true ∧
      (dp_extract_solution (2 ^ c.requirements.length - 1)
        (run_dp (2 ^ c.requirements.length - 1) cands)).total_cost =
        coverMin cands (2 ^ c.requirements.length - 1) ∧
      (dp_extract_solution (2 ^ c.requirements.length - 1)
        (run_dp (2 ^ c.requirements.length - 1) cands)).total_cost =
        ((calculate_cost (dp_extract_solution (2 ^ c.requirements.length - 1)
          (run_dp (2 ^ c.requirements.length - 1) cands)).employees : ℚ) : WithTop ℚ) ∧
      CoversProp c (dp_extract_solution (2 ^ c.requirements.length - 1)
        (run_dp (2 ^ c.requirements.length - 1) cands)).employees) := by
  set n := c.requirements.length with hn
  set full := 2 ^ n - 1 with hfull
  set st := run_dp full cands with hst
  have hsalp : ∀ p ∈ cands, 0 ≤ p.1.salary_per_hour :=
    fun p hp => hsal p.1 (hwf p hp).1
  have hmlt : ∀ p ∈ cands, p.2 < 2 ^ n := by
    intro p hp
    rw [(hwf p hp).2.1]
    exact employee_mask_lt c p.1
  have hdp : ∀ T, st.1 T = coverMin cands T := run_dp_dp n cands hsalp hmlt
  by_cases hTop : st.1 full = ⊤
  · left
    constructor
    · unfold dp_extract_solution
      rw [if_pos hTop]
    · rw [← hdp full, hTop]
  · right
    have hfin : st.1 full < ⊤ := lt_top_iff_ne_top.mpr hTop
    have hInv : DPInv cands st :=
      run_dp_inv full cands (fun p hp => by have := (hwf p hp).2.2; omega) hsalp
    obtain ⟨hchaincost, hchainbits, hchainmem⟩ :=
      extract_chain_spec cands st hInv (full + 1) full (by omega) hfin
    have hext : dp_extract_solution full st =
        ⟨pySetOfList (extract_chain st.2 (full + 1) full), st.1 full, true⟩ := by
      unfold dp_extract_solution
      rw [if_neg hTop]
    have hpooluniq : ∀ a ∈ pool, ∀ b ∈ pool, a.id = b.id → a = b :=
      fun a ha b hb h => List.inj_on_of_nodup_map hids ha hb h
    have hchain_pool : ∀ e ∈ extract_chain st.2 (full + 1) full, e ∈ pool := by
      intro e he
      obtain ⟨m, hm⟩ := hchainmem e he
      exact (hwf (e, m) hm).1
    have huniq_chain : ∀ a ∈ extract_chain st.2 (full + 1) full,
        ∀ b ∈ extract_chain st.2 (full + 1) full, a.id = b.id → a = b :=
      fun a ha b hb h => hpooluniq a (hchain_pool a ha) b (hchain_pool b hb) h
    have hselsub : ∀ x ∈ pySetOfList (extract_chain st.2 (full + 1) full),
        x ∈ extract_chain st.2 (full + 1) full :=
      fun x hx => pySet_subset _ x hx
    have hselnodup : (pySetOfList (extract_chain st.2 (full + 1) full)).Nodup :=
      List.Nodup.of_map _ (pySetOfList_nodup _)
    have hbcost : calculate_cost (pySetOfList (extract_chain st.2 (full + 1) full)) ≤
        calculate_cost (extract_chain st.2 (full + 1) full) :=
      calculate_cost_subperm_le (List.subperm_of_subset hselnodup hselsub)
        (fun e he => hsal e (hchain_pool e he))
    have hbits_sel : ∀ i, full.testBit i = true →
        ∃ e ∈ pySetOfList (extract_chain st.2 (full + 1) full),
          (employee_mask c e).testBit i = true := by
      intro i hi
      obtain ⟨e, he, m, hm, hbit⟩ := hchainbits i hi
      have hmask : m = employee_mask c e := (hwf (e, m) hm).2.1
      exact ⟨e, pySet_mem _ huniq_chain e he, hmask ▸ hbit⟩
    have hPmem : ∀ q ∈ (pySetOfList (extract_chain st.2 (full + 1) full)).map
        (fun e => (e, employee_mask c e)), q ∈ cands := by
      intro q hq
      rw [List.mem_map] at hq
      obtain ⟨e, he, rfl⟩ := hq
      obtain ⟨m, hm⟩ := hchainmem e (hselsub e he)
      have hmask : m = employee_mask c e := (hwf (e, m) hm).2.1
      rw [← hmask]
      exact hm
    have hPnodup : ((pySetOfList (extract_chain st.2 (full + 1) full)).map
        (fun e => (e, employee_mask c e))).Nodup :=
      hselnodup.map (fun a b h => congrArg Prod.fst h)
    obtain ⟨P', hP'perm, hP'sub⟩ := List.subperm_of_subset hPnodup hPmem
    have hPm : mask_or ((pySetOfList (extract_chain st.2 (full + 1) full)).map
        (fun e => (e, employee_mask c e))) = full := by
      apply Nat.eq_of_testBit_eq
      intro i
      by_cases hi : i < n
      · have hfb : full.testBit i = true := by
          rw [hfull, Nat.testBit_two_pow_sub_one]
          exact decide_eq_true hi
        rw [hfb, Bool.eq_iff_iff, mask_or_testBit]
        constructor
        · intro _; rfl
        · intro _
          obtain ⟨e, he, hbit⟩ := hbits_sel i hfb
          exact ⟨(e, employee_mask c e), List.mem_map_of_mem _ he, hbit⟩
      · have h1 : mask_or ((pySetOfList (extract_chain st.2 (full + 1) full)).map
            (fun e => (e, employee_mask c e))) < 2 ^ n := by
          apply mask_or_lt_two_pow
          intro p hp
          rw [List.mem_map] at hp
          obtain ⟨e, _, rfl⟩ := hp
          exact employee_mask_lt c e
        rw [testBit_high_false h1 (by omega)]
        rw [testBit_high_false (by rw [hfull]; omega : full < 2 ^ n) (by omega)]
    have hcdir : st.1 full ≤
        ((calculate_cost (pySetOfList (extract_chain st.2 (full + 1) full)) : ℚ) :
          WithTop ℚ) := by
      rw [hdp full]
      calc coverMin cands full ≤ ((pair_cost P' : ℚ) : WithTop ℚ) :=
            coverMin_le hP'sub (by rw [mask_or_perm hP'perm, hPm])
        _ = ((pair_cost ((pySetOfList (extract_chain st.2 (full + 1) full)).map
              (fun e => (e, employee_mask c e))) : ℚ) : WithTop ℚ) := by
            rw [pair_cost_perm hP'perm]
        _ = _ := by rw [pair_cost_map_pair]
    have hadir : ((calculate_cost (pySetOfList (extract_chain st.2 (full + 1) full)) : ℚ) :
        WithTop ℚ) ≤ st.1 full :=
      le_trans (WithTop.coe_le_coe.mpr hbcost) hchaincost
    have hcost_eq : ((calculate_cost (pySetOfList (extract_chain st.2 (full + 1) full)) : ℚ) :
        WithTop ℚ) = st.1 full := le_antisymm hadir hcdir
    have hcover : CoversProp c (pySetOfList (extract_chain st.2 (full + 1) full)) := by
      intro r hr
      obtain ⟨i, hi⟩ := List.mem_iff_get?.mp hr
      have hlen2 : i < n := by
        obtain ⟨hlt, _⟩ := List.get?_eq_some.mp hi
        exact hlt
      have hfb : full.testBit i = true := by
        rw [hfull, Nat.testBit_two_pow_sub_one]
        exact decide_eq_true hlen2
      obtain ⟨e, he, hbit⟩ := hbits_sel i hfb
      rw [employee_mask_testBit, hi] at hbit
      exact ⟨e, he, hbit⟩
    rw [hext]
    exact ⟨rfl, by rw [← hdp full], hcost_eq.symm, hcover⟩

theorem minCover_empty_reqs (c : Client) (pool : List Employee)
    (hreqs : c.requirements = []) (hsal : ∀ e ∈ pool, 0 ≤ e.salary_per_hour) :
    minCoverCost c pool = ((0 : ℚ) : WithTop ℚ) := by
  apply le_antisymm
  · apply listMin_le_of_mem
    rw [List.mem_map]
    refine ⟨[], List.mem_filter.mpr ⟨List.mem_sublists.mpr (List.nil_sublist pool), ?_⟩, rfl⟩
    unfold is_complete_cover
    rw [hreqs]
    rfl
  · apply le_listMin
    intro a ha
    rw [List.mem_map] at ha
    obtain ⟨L, hLf, rfl⟩ := ha
    rw [List.mem_filter] at hLf
    have hsub : List.Sublist L pool := List.mem_sublists.mp hLf.1
    exact WithTop.coe_le_coe.mpr
      (calculate_cost_nonneg (fun e he => hsal e (hsub.subset he)))

theorem minCover_top_of_no_useful (c : Client) (pool : List Employee)
    (hkeys : (c.requirements.map Prod.fst).Nodup)
    (hreqs : c.requirements ≠ []) (hU : get_useful_employees c pool = []) :
    minCoverCost c pool = ⊤ := by
  rcases listMin_eq_top_or_mem ((pool.sublists.filter
      (fun L => is_complete_cover c L)).map
    (fun L => ((calculate_cost L : ℚ) : WithTop ℚ))) with h | h
  · exact h
  · exfalso
    rw [List.mem_map] at h
    obtain ⟨E, hEf, _⟩ := h
    rw [List.mem_filter] at hEf
    have hcov : CoversProp c E := (is_complete_cover_iff c E hkeys).mp hEf.2
    have hsub : List.Sublist E pool := List.mem_sublists.mp hEf.1
    obtain ⟨r, hr⟩ := List.exists_mem_of_ne_nil c.requirements hreqs
    obtain ⟨e, he, hcove⟩ := hcov r hr
    obtain ⟨i, hi⟩ := List.mem_iff_get?.mp hr
    have hbit : (employee_mask c e).testBit i = true := by
      rw [employee_mask_testBit, hi]
      exact hcove
    have hmask : 0 < employee_mask c e := by
      rcases Nat.eq_zero_or_pos (employee_mask c e) with h0 | h0
      · rw [h0, Nat.zero_testBit] at hbit
        cases hbit
      · exact h0
    have : (e, employee_mask c e) ∈ get_useful_employees c pool :=
      (mem_get_useful c pool (e, employee_mask c e)).mpr ⟨hsub.subset he, rfl, hmask⟩
    rw [hU] at this
    cases this

/-- Full specification of `DPSolver.solve` within the requirement limit:
it returns a Solution whose cost is the exact minimum cover cost, which is
valid (with cost = summed salary of a covering selection) exactly when a
cover exists, and is the invalid sentinel otherwise. -/
theorem dp_solve_spec (c : Client) (pool : List Employee)
    (hkeys : (c.requirements.map Prod.fst).Nodup)
    (hsal : ∀ e ∈ pool, 0 ≤ e.salary_per_hour)
    (hids : (pool.map Employee.id).Nodup)
    (hlen : c.requirements.length ≤ MAX_REQUIREMENTS) :
    ∃ sol, dp_solve c pool = some sol ∧
      sol.total_cost = minCoverCost c pool ∧
      (sol.is_valid = true → sol.total_cost =
          ((calculate_cost sol.employees : ℚ) : WithTop ℚ) ∧ CoversProp c sol.employees) ∧
      (sol.is_valid = false → sol = Solution.invalid) ∧
      (sol.is_valid = true ↔ minCoverCost c pool ≠ ⊤) := by
  unfold dp_solve
  rw [if_neg (not_lt.mpr hlen)]
  by_cases h0 : c.requirements.length = 0
  · rw [if_pos h0]
    have hreqs : c.requirements = [] := List.length_eq_zero.mp h0
    have hmc := minCover_empty_reqs c pool hreqs hsal
    refine ⟨_, rfl, ?_, ?_, ?_, ?_⟩
    · rw [hmc]
    · intro _
      constructor
      · show ((0 : ℚ) : WithTop ℚ) = ((calculate_cost [] : ℚ) : WithTop ℚ)
        norm_num [calculate_cost]
      · intro r hr
        rw [hreqs] at hr
        cases hr
    · intro hfalse
      exact absurd hfalse (by simp)
    · constructor
      · intro _
        rw [hmc]
        exact WithTop.coe_ne_top
      · intro _
        rfl
  · rw [if_neg h0]
    have hreqs : c.requirements ≠ [] := fun h => h0 (by rw [h]; rfl)
    by_cases hU : get_useful_employees c pool = []
    · rw [if_pos hU]
      have hmc := minCover_top_of_no_useful c pool hkeys hreqs hU
      refine ⟨Solution.invalid, rfl, ?_, ?_, fun _ => rfl, ?_⟩
      · rw [hmc]
        rfl
      · intro hval
        exact absurd hval (by simp [Solution.invalid])
      · constructor
        · intro hval
          exact absurd hval (by simp [Solution.invalid])
        · intro hne
          exact absurd hmc hne
    · rw [if_neg hU]
      have hwf : ∀ p ∈ get_useful_employees c pool,
          p.1 ∈ pool ∧ p.2 = employee_mask c p.1 ∧ 0 < p.2 :=
        fun p hp => (mem_get_useful c pool p).mp hp
      have hcm : coverMin (get_useful_employees c pool) (2 ^ c.requirements.length - 1) =
          minCoverCost c pool := coverMin_useful_eq c pool hkeys hsal
      rcases dp_extract_spec c pool (get_useful_employees c pool) hwf hsal hids with
        ⟨hinv, htop⟩ | ⟨hval, hcost, hsum, hcov⟩
      · refine ⟨_, rfl, ?_, ?_, ?_, ?_⟩
        · rw [hinv, ← hcm, htop]
          rfl
        · intro hv
          rw [hinv] at hv
          exact absurd hv (by simp [Solution.invalid])
        · intro _
          exact hinv
        · constructor
          · intro hv
            rw [hinv] at hv
            exact absurd hv (by simp [Solution.invalid])
          · intro hne
            rw [← hcm] at hne
            exact absurd htop hne
      · refine ⟨_, rfl, ?_, ?_, ?_, ?_⟩
        · rw [hcost, hcm]
        · intro _
          exact ⟨hsum, hcov⟩
        · intro hv
          rw [hval] at hv
          cases hv
        · constructor
          · intro _
            rw [← hcm]
            intro hcontra
            rw [← hcost] at hcontra
            have := hsum ▸ hcontra
            exact WithTop.coe_ne_top this
          · intro _
            exact hval

/-! ### Dominance pre-filtering (`DPSolverOptimized`) -/

theorem lookup_none_not_mem (l : List (ℕ × Employee)) (a : ℕ)
    (h : l.lookup a = none) : ∀ p ∈ l, p.1 ≠ a := by
  induction l with
  | nil => intro p hp; cases hp
  | cons q t ih =>
    rw [List.lookup_cons] at h
    cases hq : (a == q.1) with
    | true => rw [hq] at h; cases h
    | false =>
      rw [hq] at h
      intro p hp hpa
      rcases List.mem_cons.mp hp with rfl | hm
      · rw [hpa] at hq
        simp at hq
      · exact ih h p hm hpa

theorem lookup_nodup_value (l : List (ℕ × Employee))
    (hk : (l.map Prod.fst).Nodup) (a : ℕ) (v cur : Employee)
    (hmem : (a, v) ∈ l) (h : l.lookup a = some cur) : v = cur := by
  induction l with
  | nil => cases hmem
  | cons q t ih =>
    rw [List.lookup_cons] at h
    rw [List.map_cons] at hk
    have hk1 := List.nodup_cons.mp hk
    cases hq : (a == q.1) with
    | true =>
      rw [hq] at h
      injection h with h2
      have haq : a = q.1 := beq_iff_eq.mp hq
      rcases List.mem_cons.mp hmem with heq | hm
      · rw [← heq] at h2
        exact h2
      · exfalso
        apply hk1.1
        rw [← haq]
        exact List.mem_map_of_mem Prod.fst hm
    | false =>
      rw [hq] at h
      rcases List.mem_cons.mp hmem with heq | hm
      · have haq : a = q.1 := by rw [← heq]
        rw [haq] at hq
        simp at hq
      · exact ih hk1.2 hm h

/-- Specification of the `mask_to_best` dict fold: keys are distinct, entries
come from the input (swapped), and each input pair has an entry with its mask
and a salary no larger. -/
theorem mask_to_best_spec (u : List (Employee × ℕ)) :
    (((mask_to_best u).map Prod.fst).Nodup) ∧
    (∀ q ∈ mask_to_best u, (q.2, q.1) ∈ u) ∧
    (∀ p ∈ u, ∃ q ∈ mask_to_best u, q.1 = p.2 ∧
      q.2.salary_per_hour ≤ p.1.salary_per_hour) := by
  suffices h : ∀ (l : List (Employee × ℕ)) (d : List (ℕ × Employee)),
      (∀ p ∈ l, p ∈ u) → ((d.map Prod.fst).Nodup) → (∀ q ∈ d, (q.2, q.1) ∈ u) →
      (((l.foldl (fun d p =>
        match d.lookup p.2 with
        | none => d ++ [(p.2, p.1)]
        | some cur =>
          if p.1.salary_per_hour < cur.salary_per_hour then
            d.map (fun q => if q.1 = p.2 then (p.2, p.1) else q)
          else d) d).map Prod.fst).Nodup) ∧
      (∀ q ∈ l.foldl (fun d p =>
        match d.lookup p.2 with
        | none => d ++ [(p.2, p.1)]
        | some cur =>
          if p.1.salary_per_hour < cur.salary_per_hour then
            d.map (fun q => if q.1 = p.2 then (p.2, p.1) else q)
          else d) d, (q.2, q.1) ∈ u) ∧
      (∀ q ∈ d, ∃ q2 ∈ l.foldl (fun d p =>
        match d.lookup p.2 with
        | none => d ++ [(p.2, p.1)]
        | some cur =>
          if p.1.salary_per_hour < cur.salary_per_hour then
            d.map (fun q => if q.1 = p.2 then (p.2, p.1) else q)
          else d) d, q2.1 = q.1 ∧ q2.2.salary_per_hour ≤ q.2.salary_per_hour) ∧
      (∀ p ∈ l, ∃ q ∈ l.foldl (fun d p =>
        match d.lookup p.2 with
        | none => d ++ [(p.2, p.1)]
        | some cur =>
          if p.1.salary_per_hour < cur.salary_per_hour then
            d.map (fun q => if q.1 = p.2 then (p.2, p.1) else q)
          else d) d, q.1 = p.2 ∧ q.2.salary_per_hour ≤ p.1.salary_per_hour) by
    obtain ⟨h1, h2, _, h4⟩ := h u [] (fun p hp => hp) List.nodup_nil (fun q hq => by cases hq)
    exact ⟨h1, h2, h4⟩
  intro l
  induction l with
  | nil =>
    intro d _ hnd hsw
    exact ⟨hnd, hsw, fun q hq => ⟨q, hq, rfl, le_refl _⟩, fun p hp => by cases hp⟩
  | cons p t ih =>
    intro d hlu hnd hsw
    rw [List.foldl_cons]
    cases hlk : d.lookup p.2 with
    | none =>
      simp only [hlk]
      have hpu : p ∈ u := hlu p (List.mem_cons_self p t)
      have hnd2 : (((d ++ [(p.2, p.1)]).map Prod.fst).Nodup) := by
        rw [List.map_append, List.map_singleton]
        apply List.Nodup.append hnd (List.nodup_singleton _)
        intro k hk hk2
        rw [List.mem_singleton] at hk2
        subst hk2
        rw [List.mem_map] at hk
        obtain ⟨q, hq, hq2⟩ := hk
        exact lookup_none_not_mem d p.2 hlk q hq hq2
      have hsw2 : ∀ q ∈ d ++ [(p.2, p.1)], (q.2, q.1) ∈ u := by
        intro q hq
        rcases List.mem_append.mp hq with hq | hq
        · exact hsw q hq
        · rw [List.mem_singleton] at hq
          subst hq
          exact hpu
      obtain ⟨c1, c2, c3, c4⟩ := ih (d ++ [(p.2, p.1)])
        (fun x hx => hlu x (List.mem_cons_of_mem p hx)) hnd2 hsw2
      refine ⟨c1, c2, ?_, ?_⟩
      · intro q hq
        exact c3 q (List.mem_append.mpr (Or.inl hq))
      · intro x hx
        rcases List.mem_cons.mp hx with rfl | hx2
        · obtain ⟨q2, hq2, hq2k, hq2s⟩ := c3 (x.2, x.1)
            (List.mem_append.mpr (Or.inr (List.mem_singleton_self _)))
          exact ⟨q2, hq2, hq2k, hq2s⟩
        · exact c4 x hx2
    | some cur =>
      have hcurmem : (p.2, cur) ∈ d := by
        clear ih hnd hsw hlu
        induction d with
        | nil => cases hlk
        | cons q t2 ih2 =>
          rw [List.lookup_cons] at hlk
          obtain ⟨k, v⟩ := q
          cases hq : (p.2 == k) with
          | true =>
            rw [hq] at hlk
            injection hlk with h2
            have hpk : p.2 = k := beq_iff_eq.mp hq
            rw [hpk, ← h2]
            exact List.mem_cons_self (k, v) t2
          | false =>
            rw [hq] at hlk
            exact List.mem_cons_of_mem (k, v) (ih2 hlk)
      simp only [hlk]
      by_cases hcheap : p.1.salary_per_hour < cur.salary_per_hour
      · rw [if_pos hcheap]
        have hkeys_eq : ((d.map (fun q => if q.1 = p.2 then (p.2, p.1) else q)).map
            Prod.fst) = d.map Prod.fst := by
          rw [List.map_map]
          apply List.map_congr_left
          intro q _
          show Prod.fst (if q.1 = p.2 then (p.2, p.1) else q) = q.1
          by_cases hq : q.1 = p.2
          · rw [if_pos hq, hq]
          · rw [if_neg hq]
        have hnd2 : (((d.map (fun q => if q.1 = p.2 then (p.2, p.1) else q)).map
            Prod.fst).Nodup) := by rw [hkeys_eq]; exact hnd
        have hsw2 : ∀ q ∈ d.map (fun q => if q.1 = p.2 then (p.2, p.1) else q),
            (q.2, q.1) ∈ u := by
          intro q hq
          rw [List.mem_map] at hq
          obtain ⟨q0, hq0, rfl⟩ := hq
          by_cases hq0k : q0.1 = p.2
          · rw [if_pos hq0k]
            exact hlu p (List.mem_cons_self p t)
          · rw [if_neg hq0k]
            exact hsw q0 hq0
        obtain ⟨c1, c2, c3, c4⟩ := ih (d.map (fun q => if q.1 = p.2 then (p.2, p.1) else q))
          (fun x hx => hlu x (List.mem_cons_of_mem p hx)) hnd2 hsw2
        refine ⟨c1, c2, ?_, ?_⟩
        · intro q hq
          by_cases hqk : q.1 = p.2
          · have hval : q.2 = cur := by
              have : (q.1, q.2) ∈ d := by
                have hqq : q = (q.1, q.2) := rfl
                rw [← hqq]; exact hq
              rw [hqk] at this
              exact lookup_nodup_value d hnd p.2 q.2 cur this hlk
            obtain ⟨q2, hq2, hq2k, hq2s⟩ := c3 (p.2, p.1)
              (List.mem_map.mpr ⟨(p.2, cur), hcurmem, by rw [if_pos rfl]⟩)
            refine ⟨q2, hq2, by rw [hq2k, hqk], ?_⟩
            calc q2.2.salary_per_hour ≤ p.1.salary_per_hour := hq2s
              _ ≤ cur.salary_per_hour := le_of_lt hcheap
              _ = q.2.salary_per_hour := by rw [hval]
          · obtain ⟨q2, hq2, hq2k, hq2s⟩ := c3 (if q.1 = p.2 then (p.2, p.1) else q)
              (List.mem_map_of_mem _ hq)
            rw [if_neg hqk] at hq2k hq2s
            exact ⟨q2, hq2, hq2k, hq2s⟩
        · intro x hx
          rcases List.mem_cons.mp hx with rfl | hx2
          · obtain ⟨q2, hq2, hq2k, hq2s⟩ := c3 (x.2, x.1)
              (List.mem_map.mpr ⟨(x.2, cur), hcurmem, by rw [if_pos rfl]⟩)
            exact ⟨q2, hq2, hq2k, hq2s⟩
          · exact c4 x hx2
      · rw [if_neg hcheap]
        obtain ⟨c1, c2, c3, c4⟩ := ih d
          (fun x hx => hlu x (List.mem_cons_of_mem p hx)) hnd hsw
        refine ⟨c1, c2, c3, ?_⟩
        intro x hx
        rcases List.mem_cons.mp hx with rfl | hx2
        · obtain ⟨q2, hq2, hq2k, hq2s⟩ := c3 (x.2, cur) hcurmem
          exact ⟨q2, hq2, hq2k, le_trans hq2s (not_lt.mp hcheap)⟩
        · exact c4 x hx2

/-- Every merged entry has a representative among the non-dominated entries:
a pair with a superset mask and no larger salary. -/
theorem nd_rep (n : ℕ) (combined : List (Employee × ℕ))
    (hmasks : (combined.map Prod.snd).Nodup)
    (hbound : ∀ p ∈ combined, p.2 < 2 ^ n) :
    ∀ pa ∈ combined, ∃ pc ∈ combined.filter
        (fun pa => ! combined.any (fun pb => !(pb == pa) && dominates pb pa)),
      maskSubset pa.2 pc.2 ∧ pc.1.salary_per_hour ≤ pa.1.salary_per_hour := by
  suffices H : ∀ k, ∀ pa ∈ combined, 2 ^ n - pa.2 ≤ k →
      ∃ pc ∈ combined.filter
          (fun pa => ! combined.any (fun pb => !(pb == pa) && dominates pb pa)),
        maskSubset pa.2 pc.2 ∧ pc.1.salary_per_hour ≤ pa.1.salary_per_hour by
    intro pa hpa
    exact H (2 ^ n) pa hpa (Nat.sub_le _ _)
  intro k
  induction k with
  | zero =>
    intro pa hpa hk
    exfalso
    have := hbound pa hpa
    omega
  | succ k ih =>
    intro pa hpa hk
    by_cases hnd : (! combined.any (fun pb => !(pb == pa) && dominates pb pa)) = true
    · exact ⟨pa, List.mem_filter.mpr ⟨hpa, hnd⟩, fun i hi => hi, le_refl _⟩
    · have hany : combined.any (fun pb => !(pb == pa) && dominates pb pa) = true := by
        rcases Bool.eq_false_or_eq_true
            (combined.any (fun pb => !(pb == pa) && dominates pb pa)) with hb | hb
        · exact hb
        · exact absurd (by rw [hb]; rfl) hnd
      rw [List.any_eq_true] at hany
      obtain ⟨pb, hpb, hcond⟩ := hany
      rw [Bool.and_eq_true] at hcond
      obtain ⟨hne, hdom⟩ := hcond
      unfold dominates at hdom
      rw [Bool.and_eq_true, Bool.and_eq_true] at hdom
      obtain ⟨⟨hsubm, hle⟩, _⟩ := hdom
      have hsub : maskSubset pa.2 pb.2 :=
        and_eq_iff_maskSubset.mp (beq_iff_eq.mp hsubm)
      have hlesal : pb.1.salary_per_hour ≤ pa.1.salary_per_hour := of_decide_eq_true hle
      have hpbne : pb ≠ pa := by
        intro h
        rw [h] at hne
        simp at hne
      have hmne : pb.2 ≠ pa.2 := by
        intro h
        exact hpbne (List.inj_on_of_nodup_map hmasks hpb hpa h)
      have hlt : pa.2 < pb.2 :=
        lt_of_le_of_ne (maskSubset_le hsub) (fun h => hmne h.symm)
      have hk2 : 2 ^ n - pb.2 ≤ k := by
        have := hbound pb hpb
        omega
      obtain ⟨pc, hpc, hpcsub, hpcle⟩ := ih pb hpb hk2
      exact ⟨pc, hpc, maskSubset_trans hsub hpcsub, le_trans hpcle hlesal⟩

/-- Replacing a candidate list by a representative-closed subset (each pair
represented by one with a superset mask and no larger cost) preserves the
optimal full-cover cost. -/
theorem coverMin_rep_eq (n : ℕ) (A B : List (Employee × ℕ))
    (hBsubA : ∀ q ∈ B, q ∈ A)
    (hrep : ∀ p ∈ A, ∃ q ∈ B, maskSubset p.2 q.2 ∧
      q.1.salary_per_hour ≤ p.1.salary_per_hour)
    (hAnodup : A.Nodup) (hBnodup : B.Nodup)
    (hsalA : ∀ p ∈ A, 0 ≤ p.1.salary_per_hour)
    (hboundA : ∀ p ∈ A, p.2 < 2 ^ n) :
    coverMin B (2 ^ n - 1) = coverMin A (2 ^ n - 1) := by
  apply le_antisymm
  · rcases coverMin_cases A (2 ^ n - 1) with h | ⟨L, hL, hm, he⟩
    · rw [h]
      exact le_top
    · rw [he]
      have hD : ∀ (L0 : List (Employee × ℕ)), (∀ p ∈ L0, p ∈ A) →
          ∃ D : List (Employee × ℕ), D.Nodup ∧ (∀ q ∈ D, q ∈ B) ∧
            maskSubset (mask_or L0) (mask_or D) ∧ pair_cost D ≤ pair_cost L0 := by
        intro L0
        induction L0 with
        | nil =>
          intro _
          refine ⟨[], List.nodup_nil, ?_, ?_, le_refl _⟩
          · intro q hq
            cases hq
          · intro i hi
            exact hi
        | cons p t iht =>
          intro hmem
          obtain ⟨D', hD'nd, hD'B, hD'm, hD'c⟩ :=
            iht (fun x hx => hmem x (List.mem_cons_of_mem p hx))
          obtain ⟨q, hqB, hqsub, hqle⟩ := hrep p (hmem p (List.mem_cons_self p t))
          by_cases hqD : q ∈ D'
          · refine ⟨D', hD'nd, hD'B, ?_, ?_⟩
            · intro i hi
              rw [mask_or_cons, Nat.testBit_or, Bool.or_eq_true] at hi
              rcases hi with hi | hi
              · have hqbit : q.2.testBit i = true := hqsub i hi
                rw [mask_or_testBit]
                exact ⟨q, hqD, hqbit⟩
              · exact hD'm i hi
            · rw [pair_cost_cons]
              have hp0 : 0 ≤ p.1.salary_per_hour :=
                hsalA p (hmem p (List.mem_cons_self p t))
              linarith
          · refine ⟨q :: D', List.nodup_cons.mpr ⟨hqD, hD'nd⟩, ?_, ?_, ?_⟩
            · intro x hx
              rcases List.mem_cons.mp hx with rfl | hx2
              · exact hqB
              · exact hD'B x hx2
            · intro i hi
              rw [mask_or_cons, Nat.testBit_or, Bool.or_eq_true] at hi
              rw [mask_or_cons, Nat.testBit_or, Bool.or_eq_true]
              rcases hi with hi | hi
              · exact Or.inl (hqsub i hi)
              · exact Or.inr (hD'm i hi)
            · rw [pair_cost_cons, pair_cost_cons]
              linarith
      obtain ⟨D, hDnd, hDB, hDm, hDc⟩ := hD L (fun p hp => hL.subset hp)
      obtain ⟨D2, hD2perm, hD2sub⟩ := List.subperm_of_subset hDnd hDB
      have hDm2 : mask_or D = 2 ^ n - 1 := by
        apply le_antisymm
        · have : mask_or D < 2 ^ n :=
            mask_or_lt_two_pow (fun p hp => hboundA p (hBsubA p (hDB p hp)))
          omega
        · rw [← hm]
          exact maskSubset_le (hm ▸ hDm)
      have hmem2 : ((pair_cost D2 : ℚ) : WithTop ℚ) ∈
          ((B.sublists.filter (fun L => decide (mask_or L = 2 ^ n - 1))).map
            (fun L => ((pair_cost L : ℚ) : WithTop ℚ))) := by
        rw [List.mem_map]
        refine ⟨D2, List.mem_filter.mpr ⟨List.mem_sublists.mpr hD2sub,
          decide_eq_true ?_⟩, rfl⟩
        rw [mask_or_perm hD2perm, hDm2]
      refine le_trans (listMin_le_of_mem hmem2) ?_
      rw [WithTop.coe_le_coe]
      rw [pair_cost_perm hD2perm]
      exact hDc
  · rcases coverMin_cases B (2 ^ n - 1) with h | ⟨L, hL, hm, he⟩
    · rw [h]
      exact le_top
    · rw [he]
      have hLnd : L.Nodup := hL.nodup hBnodup
      have hLA : ∀ p ∈ L, p ∈ A := fun p hp => hBsubA p (hL.subset hp)
      obtain ⟨L2, hL2perm, hL2sub⟩ := List.subperm_of_subset hLnd hLA
      have hmem2 : ((pair_cost L2 : ℚ) : WithTop ℚ) ∈
          ((A.sublists.filter (fun L => decide (mask_or L = 2 ^ n - 1))).map
            (fun L => ((pair_cost L : ℚ) : WithTop ℚ))) := by
        rw [List.mem_map]
        refine ⟨L2, List.mem_filter.mpr ⟨List.mem_sublists.mpr hL2sub,
          decide_eq_true ?_⟩, rfl⟩
        rw [mask_or_perm hL2perm, hm]
      refine le_trans (listMin_le_of_mem hmem2) ?_
      rw [WithTop.coe_le_coe, pair_cost_perm hL2perm]

theorem useful_nodup (c : Client) (pool : List Employee)
    (hids : (pool.map Employee.id).Nodup) :
    (get_useful_employees c pool).Nodup := by
  unfold get_useful_employees
  apply List.Nodup.filter
  apply List.Nodup.map (fun a b h => congrArg Prod.fst h)
  exact List.Nodup.of_map _ hids

/-- The optimized pre-filter returns a subset of the useful employees in
which every useful employee has a representative with a superset mask and no
larger salary. -/
theorem opt_useful_spec (c : Client) (pool : List Employee)
    (hids : (pool.map Employee.id).Nodup) :
    (∀ q ∈ get_useful_employees_opt c pool, q ∈ get_useful_employees c pool) ∧
    (∀ p ∈ get_useful_employees c pool, ∃ q ∈ get_useful_employees_opt c pool,
      maskSubset p.2 q.2 ∧ q.1.salary_per_hour ≤ p.1.salary_per_hour) ∧
    (get_useful_employees_opt c pool).Nodup := by
  have hUeq : (pool.map (fun e => (e, employee_mask c e))).filter
      (fun p => decide (0 < p.2)) = get_useful_employees c pool := rfl
  unfold get_useful_employees_opt
  rw [hUeq]
  by_cases h1 : (get_useful_employees c pool).length ≤ 1
  · rw [if_pos h1]
    exact ⟨fun q hq => hq,
      fun p hp => ⟨p, hp, fun i hi => hi, le_refl _⟩,
      useful_nodup c pool hids⟩
  · rw [if_neg h1]
    obtain ⟨hmtbk, hmtbe, hmtbr⟩ := mask_to_best_spec (get_useful_employees c pool)
    have hcomb_sub : ∀ q ∈ (mask_to_best (get_useful_employees c pool)).map
        (fun q => (q.2, q.1)), q ∈ get_useful_employees c pool := by
      intro q hq
      rw [List.mem_map] at hq
      obtain ⟨q0, hq0, rfl⟩ := hq
      exact hmtbe q0 hq0
    have hcomb_rep : ∀ p ∈ get_useful_employees c pool,
        ∃ q ∈ (mask_to_best (get_useful_employees c pool)).map (fun q => (q.2, q.1)),
          q.2 = p.2 ∧ q.1.salary_per_hour ≤ p.1.salary_per_hour := by
      intro p hp
      obtain ⟨q0, hq0, hq0k, hq0s⟩ := hmtbr p hp
      exact ⟨(q0.2, q0.1), List.mem_map_of_mem _ hq0, hq0k, hq0s⟩
    have hcomb_masks : (((mask_to_best (get_useful_employees c pool)).map
        (fun q => (q.2, q.1))).map Prod.snd).Nodup := by
      rw [List.map_map]
      exact hmtbk
    have hcomb_nodup : ((mask_to_best (get_useful_employees c pool)).map
        (fun q => (q.2, q.1))).Nodup :=
      List.Nodup.of_map Prod.snd hcomb_masks
    have hcomb_bound : ∀ q ∈ (mask_to_best (get_useful_employees c pool)).map
        (fun q => (q.2, q.1)), q.2 < 2 ^ c.requirements.length := by
      intro q hq
      have hm := (mem_get_useful c pool q).mp (hcomb_sub q hq)
      rw [hm.2.1]
      exact employee_mask_lt c q.1
    by_cases h2 : ((mask_to_best (get_useful_employees c pool)).map
        (fun q => (q.2, q.1))).length ≤ 1
    · rw [if_pos h2]
      refine ⟨hcomb_sub, ?_, hcomb_nodup⟩
      intro p hp
      obtain ⟨q, hq, hqm, hqs⟩ := hcomb_rep p hp
      exact ⟨q, hq, fun i hi => hqm ▸ hi, hqs⟩
    · rw [if_neg h2]
      refine ⟨?_, ?_, ?_⟩
      · intro q hq
        rw [List.mem_filter] at hq
        exact hcomb_sub q hq.1
      · intro p hp
        obtain ⟨q, hq, hqm, hqs⟩ := hcomb_rep p hp
        obtain ⟨pc, hpc, hpcsub, hpcle⟩ := nd_rep c.requirements.length
          ((mask_to_best (get_useful_employees c pool)).map (fun q => (q.2, q.1)))
          hcomb_masks hcomb_bound q hq
        refine ⟨pc, hpc, ?_, le_trans hpcle hqs⟩
        intro i hi
        exact hpcsub i (hqm ▸ hi)
      · exact List.Nodup.filter _ hcomb_nodup

/-- Full specification of `DPSolverOptimized.solve`: identical contract to
`DPSolver.solve` — in particular the same optimal total cost. -/
theorem dp_solve_opt_spec (c : Client) (pool : List Employee)
    (hkeys : (c.requirements.map Prod.fst).Nodup)
    (hsal : ∀ e ∈ pool, 0 ≤ e.salary_per_hour)
    (hids : (pool.map Employee.id).Nodup)
    (hlen : c.requirements.length ≤ MAX_REQUIREMENTS) :
    ∃ sol, dp_solve_opt c pool = some sol ∧
      sol.total_cost = minCoverCost c pool ∧
      (sol.is_valid = true → sol.total_cost =
          ((calculate_cost sol.employees : ℚ) : WithTop ℚ) ∧ CoversProp c sol.employees) ∧
      (sol.is_valid = false → sol = Solution.invalid) ∧
      (sol.is_valid = true ↔ minCoverCost c pool ≠ ⊤) := by
  obtain ⟨hone, htwo, hthree⟩ := opt_useful_spec c pool hids
  unfold dp_solve_opt
  rw [if_neg (not_lt.mpr hlen)]
  by_cases h0 : c.requirements.length = 0
  · rw [if_pos h0]
    have hreqs : c.requirements = [] := List.length_eq_zero.mp h0
    have hmc := minCover_empty_reqs c pool hreqs hsal
    refine ⟨_, rfl, ?_, ?_, ?_, ?_⟩
    · rw [hmc]
    · intro _
      constructor
      · show ((0 : ℚ) : WithTop ℚ) = ((calculate_cost [] : ℚ) : WithTop ℚ)
        norm_num [calculate_cost]
      · intro r hr
        rw [hreqs] at hr
        cases hr
    · intro hfalse
      exact absurd hfalse (by simp)
    · constructor
      · intro _
        rw [hmc]
        exact WithTop.coe_ne_top
      · intro _
        rfl
  · rw [if_neg h0]
    have hreqs : c.requirements ≠ [] := fun h => h0 (by rw [h]; rfl)
    by_cases hU : get_useful_employees_opt c pool = []
    · rw [if_pos hU]
      have hU0 : get_useful_employees c pool = [] := by
        by_contra hne
        obtain ⟨p, hp⟩ := List.exists_mem_of_ne_nil _ hne
        obtain ⟨q, hq, _⟩ := htwo p hp
        rw [hU] at hq
        cases hq
      have hmc := minCover_top_of_no_useful c pool hkeys hreqs hU0
      refine ⟨Solution.invalid, rfl, ?_, ?_, fun _ => rfl, ?_⟩
      · rw [hmc]
        rfl
      · intro hval
        exact absurd hval (by simp [Solution.invalid])
      · constructor
        · intro hval
          exact absurd hval (by simp [Solution.invalid])
        · intro hne
          exact absurd hmc hne
    · rw [if_neg hU]
      have hwf : ∀ p ∈ get_useful_employees_opt c pool,
          p.1 ∈ pool ∧ p.2 = employee_mask c p.1 ∧ 0 < p.2 :=
        fun p hp => (mem_get_useful c pool p).mp (hone p hp)
      have hsalU : ∀ p ∈ get_useful_employees c pool, 0 ≤ p.1.salary_per_hour :=
        fun p hp => hsal p.1 ((mem_get_useful c pool p).mp hp).1
      have hboundU : ∀ p ∈ get_useful_employees c pool,
          p.2 < 2 ^ c.requirements.length := by
        intro p hp
        rw [((mem_get_useful c pool p).mp hp).2.1]
        exact employee_mask_lt c p.1
      have hcm : coverMin (get_useful_employees_opt c pool)
          (2 ^ c.requirements.length - 1) = minCoverCost c pool := by
        rw [coverMin_rep_eq c.requirements.length (get_useful_employees c pool)
          (get_useful_employees_opt c pool) hone htwo (useful_nodup c pool hids)
          hthree hsalU hboundU]
        exact coverMin_useful_eq c pool hkeys hsal
      rcases dp_extract_spec c pool (get_useful_employees_opt c pool) hwf hsal hids with
        ⟨hinv, htop⟩ | ⟨hval, hcost, hsum, hcov⟩
      · refine ⟨_, rfl, ?_, ?_, ?_, ?_⟩
        · rw [hinv, ← hcm, htop]
          rfl
        · intro hv
          rw [hinv] at hv
          exact absurd hv (by simp [Solution.invalid])
        · intro _
          exact hinv
        · constructor
          · intro hv
            rw [hinv] at hv
            exact absurd hv (by simp [Solution.invalid])
          · intro hne
            rw [← hcm] at hne
            exact absurd htop hne
      · refine ⟨_, rfl, ?_, ?_, ?_, ?_⟩
        · rw [hcost, hcm]
        · intro _
          exact ⟨hsum, hcov⟩
        · intro hv
          rw [hval] at hv
          cases hv
        · constructor
          · intro _
            rw [← hcm]
            intro hcontra
            rw [← hcost] at hcontra
            have := hsum ▸ hcontra
            exact WithTop.coe_ne_top this
          · intro _
            exact hval

/-! ### Backtracking correctness -/

theorem bt_eq_prune (c : Client) (empList : List Employee) (pos : ℕ)
    (selected : List Employee) (cost : ℚ) (best : Solution)
    (h : best.total_cost ≤ ((cost : ℚ) : WithTop ℚ)) :
    backtrack c empList pos selected cost best = best := by
  conv_lhs => rw [backtrack]
  rw [if_pos h]

theorem bt_eq_found (c : Client) (empList : List Employee) (pos : ℕ)
    (selected : List Employee) (cost : ℚ) (best : Solution)
    (h1 : ¬ best.total_cost ≤ ((cost : ℚ) : WithTop ℚ))
    (h2 : is_complete_cover c selected = true) :
    backtrack c empList pos selected cost best =
      ⟨selected, ((cost : ℚ) : WithTop ℚ), true⟩ := by
  conv_lhs => rw [backtrack]
  rw [if_neg h1, if_pos h2]

theorem bt_eq_exhaust (c : Client) (empList : List Employee) (pos : ℕ)
    (selected : List Employee) (cost : ℚ) (best : Solution)
    (h1 : ¬ best.total_cost ≤ ((cost : ℚ) : WithTop ℚ))
    (h2 : ¬ is_complete_cover c selected = true)
    (h3 : empList.length ≤ pos) :
    backtrack c empList pos selected cost best = best := by
  conv_lhs => rw [backtrack]
  rw [if_neg h1, if_neg h2, dif_pos h3]

theorem bt_eq_infeasible (c : Client) (empList : List Employee) (pos : ℕ)
    (selected : List Employee) (cost : ℚ) (best : Solution)
    (h1 : ¬ best.total_cost ≤ ((cost : ℚ) : WithTop ℚ))
    (h2 : ¬ is_complete_cover c selected = true)
    (h3 : ¬ empList.length ≤ pos)
    (h4 : ¬ can_potentially_cover c empList pos
      (get_uncovered_requirements c selected) = true) :
    backtrack c empList pos selected cost best = best := by
  conv_lhs => rw [backtrack]
  rw [if_neg h1, if_neg h2, dif_neg h3]
  simp only [if_pos h4]

theorem bt_eq_step (c : Client) (empList : List Employee) (pos : ℕ)
    (selected : List Employee) (cost : ℚ) (best : Solution)
    (h1 : ¬ best.total_cost ≤ ((cost : ℚ) : WithTop ℚ))
    (h2 : ¬ is_complete_cover c selected = true)
    (h3 : ¬ empList.length ≤ pos)
    (h4 : can_potentially_cover c empList pos
      (get_uncovered_requirements c selected) = true) :
    backtrack c empList pos selected cost best =
      backtrack c empList (pos + 1) selected cost
        (if can_cover_any_requirement (empList.get ⟨pos, by omega⟩)
            (get_uncovered_requirements c selected) = true then
          backtrack c empList (pos + 1)
            (selected ++ [empList.get ⟨pos, by omega⟩])
            (cost + (empList.get ⟨pos, by omega⟩).salary_per_hour) best
        else best) := by
  conv_lhs => rw [backtrack]
  rw [if_neg h1, if_neg h2, dif_neg h3]
  have h5 : ¬ ¬ can_potentially_cover c empList pos
      (get_uncovered_requirements c selected) = true := fun hcontra => hcontra h4
  simp only [if_neg h5]

/-- Main invariant of `BacktrackSolver._backtrack`: the result never exceeds
the incumbent cost; a valid result covers the requirements at the recorded
summed cost with employees from the list; the result's cost is at most the
cost of any covering extension of the current partial selection with
employees from the unvisited tail; and the result is either the incumbent or
a newly recorded valid solution. -/
theorem backtrack_spec (c : Client) (empList : List Employee)
    (hkeys : (c.requirements.map Prod.fst).Nodup)
    (hsal : ∀ e ∈ empList, 0 ≤ e.salary_per_hour) :
    ∀ (k pos : ℕ) (selected : List Employee) (cost : ℚ) (best : Solution),
    empList.length - pos ≤ k →
    cost = calculate_cost selected →
    List.Sublist selected (empList.take pos) →
    (best.is_valid = true → CoversProp c best.employees ∧
      best.total_cost = ((calculate_cost best.employees : ℚ) : WithTop ℚ) ∧
      List.Sublist best.employees empList) →
    (backtrack c empList pos selected cost best).total_cost ≤ best.total_cost ∧
    ((backtrack c empList pos selected cost best).is_valid = true →
      CoversProp c (backtrack c empList pos selected cost best).employees ∧
      (backtrack c empList pos selected cost best).total_cost =
        ((calculate_cost (backtrack c empList pos selected cost best).employees : ℚ) :
          WithTop ℚ) ∧
      List.Sublist (backtrack c empList pos selected cost best).employees empList) ∧
    (∀ X, List.Sublist X (empList.drop pos) → CoversProp c (selected ++ X) →
      (backtrack c empList pos selected cost best).total_cost ≤
        ((cost + calculate_cost X : ℚ) : WithTop ℚ)) ∧
    (backtrack c empList pos selected cost best = best ∨
      (backtrack c empList pos selected cost best).is_valid = true) := by
  intro k
  induction k with
  | zero =>
    intro pos selected cost best hk hcost hsel hbest
    by_cases h1 : best.total_cost ≤ ((cost : ℚ) : WithTop ℚ)
    · rw [bt_eq_prune c empList pos selected cost best h1]
      refine ⟨le_refl _, hbest, ?_, Or.inl rfl⟩
      intro X hX hcov
      refine le_trans h1 (WithTop.coe_le_coe.mpr ?_)
      have hXn : 0 ≤ calculate_cost X :=
        calculate_cost_nonneg (fun e he => hsal e
          ((hX.trans (List.drop_sublist pos empList)).subset he))
      linarith
    · by_cases h2 : is_complete_cover c selected = true
      · rw [bt_eq_found c empList pos selected cost best h1 h2]
        have hlt : ((cost : ℚ) : WithTop ℚ) < best.total_cost := not_le.mp h1
        refine ⟨le_of_lt hlt, ?_, ?_, Or.inr rfl⟩
        · intro _
          exact ⟨(is_complete_cover_iff c selected hkeys).mp h2, by rw [hcost],
            hsel.trans (List.take_sublist pos empList)⟩
        · intro X hX hcov
          apply WithTop.coe_le_coe.mpr
          have hXn : 0 ≤ calculate_cost X :=
            calculate_cost_nonneg (fun e he => hsal e
              ((hX.trans (List.drop_sublist pos empList)).subset he))
          linarith
      · have h3 : empList.length ≤ pos := by omega
        rw [bt_eq_exhaust c empList pos selected cost best h1 h2 h3]
        refine ⟨le_refl _, hbest, ?_, Or.inl rfl⟩
        intro X hX hcov
        exfalso
        rw [List.drop_eq_nil_of_le h3] at hX
        rw [List.sublist_nil.mp hX, List.append_nil] at hcov
        exact h2 ((is_complete_cover_iff c selected hkeys).mpr hcov)
  | succ k ih =>
    intro pos selected cost best hk hcost hsel hbest
    by_cases h1 : best.total_cost ≤ ((cost : ℚ) : WithTop ℚ)
    · rw [bt_eq_prune c empList pos selected cost best h1]
      refine ⟨le_refl _, hbest, ?_, Or.inl rfl⟩
      intro X hX hcov
      refine le_trans h1 (WithTop.coe_le_coe.mpr ?_)
      have hXn : 0 ≤ calculate_cost X :=
        calculate_cost_nonneg (fun e he => hsal e
          ((hX.trans (List.drop_sublist pos empList)).subset he))
      linarith
    · by_cases h2 : is_complete_cover c selected = true
      · rw [bt_eq_found c empList pos selected cost best h1 h2]
        have hlt : ((cost : ℚ) : WithTop ℚ) < best.total_cost := not_le.mp h1
        refine ⟨le_of_lt hlt, ?_, ?_, Or.inr rfl⟩
        · intro _
          exact ⟨(is_complete_cover_iff c selected hkeys).mp h2, by rw [hcost],
            hsel.trans (List.take_sublist pos empList)⟩
        · intro X hX hcov
          apply WithTop.coe_le_coe.mpr
          have hXn : 0 ≤ calculate_cost X :=
            calculate_cost_nonneg (fun e he => hsal e
              ((hX.trans (List.drop_sublist pos empList)).subset he))
          linarith
      · by_cases h3 : empList.length ≤ pos
        · rw [bt_eq_exhaust c empList pos selected cost best h1 h2 h3]
          refine ⟨le_refl _, hbest, ?_, Or.inl rfl⟩
          intro X hX hcov
          exfalso
          rw [List.drop_eq_nil_of_le h3] at hX
          rw [List.sublist_nil.mp hX, List.append_nil] at hcov
          exact h2 ((is_complete_cover_iff c selected hkeys).mpr hcov)
        · by_cases h4 : can_potentially_cover c empList pos
              (get_uncovered_requirements c selected) = true
          · -- the branching step
            have hpos : pos < empList.length := by omega
            have hk2 : empList.length - (pos + 1) ≤ k := by omega
            rw [bt_eq_step c empList pos selected cost best h1 h2 h3 h4]
            have hemem : empList.get ⟨pos, (by omega : pos < empList.length)⟩ ∈ empList :=
              List.get_mem empList pos hpos
            have hesal : 0 ≤ (empList.get
                ⟨pos, (by omega : pos < empList.length)⟩).salary_per_hour := hsal _ hemem
            have hcost2 : cost + (empList.get
                ⟨pos, (by omega : pos < empList.length)⟩).salary_per_hour =
                calculate_cost (selected ++
                  [empList.get ⟨pos, (by omega : pos < empList.length)⟩]) := by
              rw [calculate_cost_append, calculate_cost_cons]
              have hnil : calculate_cost ([] : List Employee) = 0 := rfl
              rw [hnil, add_zero, hcost]
            have h6 : empList.take pos ++
                [empList.get ⟨pos, (by omega : pos < empList.length)⟩] =
                empList.take (pos + 1) := by
              have h7 := List.take_concat_get' empList pos hpos
              simpa using h7
            have hsel2 : List.Sublist (selected ++
                [empList.get ⟨pos, (by omega : pos < empList.length)⟩])
                (empList.take (pos + 1)) := by
              rw [← h6]
              exact List.Sublist.append hsel (List.Sublist.refl _)
            have hsel3 : List.Sublist selected (empList.take (pos + 1)) := by
              rw [← h6]
              exact hsel.trans (List.sublist_append_left _ _)
            have hbest1 : (if can_cover_any_requirement
                  (empList.get ⟨pos, (by omega : pos < empList.length)⟩)
                  (get_uncovered_requirements c selected) = true then
                backtrack c empList (pos + 1)
                  (selected ++ [empList.get ⟨pos, (by omega : pos < empList.length)⟩])
                  (cost + (empList.get
                    ⟨pos, (by omega : pos < empList.length)⟩).salary_per_hour) best
              else best).total_cost ≤ best.total_cost ∧
                ((if can_cover_any_requirement
                    (empList.get ⟨pos, (by omega : pos < empList.length)⟩)
                    (get_uncovered_requirements c selected) = true then
                  backtrack c empList (pos + 1)
                    (selected ++ [empList.get ⟨pos, (by omega : pos < empList.length)⟩])
                    (cost + (empList.get
                      ⟨pos, (by omega : pos < empList.length)⟩).salary_per_hour) best
                else best).is_valid = true →
                  CoversProp c (if can_cover_any_requirement
                      (empList.get ⟨pos, (by omega : pos < empList.length)⟩)
                      (get_uncovered_requirements c selected) = true then
                    backtrack c empList (pos + 1)
                      (selected ++ [empList.get ⟨pos, (by omega : pos < empList.length)⟩])
                      (cost + (empList.get
                        ⟨pos, (by omega : pos < empList.length)⟩).salary_per_hour) best
                  else best).employees ∧
                  (if can_cover_any_requirement
                      (empList.get ⟨pos, (by omega : pos < empList.length)⟩)
                      (get_uncovered_requirements c selected) = true then
                    backtrack c empList (pos + 1)
                      (selected ++ [empList.get ⟨pos, (by omega : pos < empList.length)⟩])
                      (cost + (empList.get
                        ⟨pos, (by omega : pos < empList.length)⟩).salary_per_hour) best
                  else best).total_cost =
                    ((calculate_cost (if can_cover_any_requirement
                        (empList.get ⟨pos, (by omega : pos < empList.length)⟩)
                        (get_uncovered_requirements c selected) = true then
                      backtrack c empList (pos + 1)
                        (selected ++ [empList.get ⟨pos, (by omega : pos < empList.length)⟩])
                        (cost + (empList.get
                          ⟨pos, (by omega : pos < empList.length)⟩).salary_per_hour) best
                    else best).employees : ℚ) : WithTop ℚ) ∧
                  List.Sublist (if can_cover_any_requirement
                      (empList.get ⟨pos, (by omega : pos < empList.length)⟩)
                      (get_uncovered_requirements c selected) = true then
                    backtrack c empList (pos + 1)
                      (selected ++ [empList.get ⟨pos, (by omega : pos < empList.length)⟩])
                      (cost + (empList.get
                        ⟨pos, (by omega : pos < empList.length)⟩).salary_per_hour) best
                  else best).employees empList) ∧
                ((if can_cover_any_requirement
                    (empList.get ⟨pos, (by omega : pos < empList.length)⟩)
                    (get_uncovered_requirements c selected) = true then
                  backtrack c empList (pos + 1)
                    (selected ++ [empList.get ⟨pos, (by omega : pos < empList.length)⟩])
                    (cost + (empList.get
                      ⟨pos, (by omega : pos < empList.length)⟩).salary_per_hour) best
                else best) = best ∨
                  (if can_cover_any_requirement
                      (empList.get ⟨pos, (by omega : pos < empList.length)⟩)
                      (get_uncovered_requirements c selected) = true then
                    backtrack c empList (pos + 1)
                      (selected ++ [empList.get ⟨pos, (by omega : pos < empList.length)⟩])
                      (cost + (empList.get
                        ⟨pos, (by omega : pos < empList.length)⟩).salary_per_hour) best
                  else best).is_valid = true) ∧
                (∀ X, List.Sublist X (empList.drop (pos + 1)) →
                  CoversProp c ((selected ++
                    [empList.get ⟨pos, (by omega : pos < empList.length)⟩]) ++ X) →
                  can_cover_any_requirement
                    (empList.get ⟨pos, (by omega : pos < empList.length)⟩)
                    (get_uncovered_requirements c selected) = true →
                  (if can_cover_any_requirement
                      (empList.get ⟨pos, (by omega : pos < empList.length)⟩)
                      (get_uncovered_requirements c selected) = true then
                    backtrack c empList (pos + 1)
                      (selected ++ [empList.get ⟨pos, (by omega : pos < empList.length)⟩])
                      (cost + (empList.get
                        ⟨pos, (by omega : pos < empList.length)⟩).salary_per_hour) best
                  else best).total_cost ≤
                    ((cost + (empList.get
                      ⟨pos, (by omega : pos < empList.length)⟩).salary_per_hour +
                      calculate_cost X : ℚ) : WithTop ℚ)) := by
              by_cases hcc : can_cover_any_requirement
                  (empList.get ⟨pos, (by omega : pos < empList.length)⟩)
                  (get_uncovered_requirements c selected) = true
              · rw [if_pos hcc]
                obtain ⟨i1, i2, i3, i4⟩ := ih (pos + 1)
                  (selected ++ [empList.get ⟨pos, (by omega : pos < empList.length)⟩])
                  (cost + (empList.get
                    ⟨pos, (by omega : pos < empList.length)⟩).salary_per_hour) best
                  hk2 hcost2 hsel2 hbest
                refine ⟨i1, i2, i4, ?_⟩
                intro X hX hcov _
                exact i3 X hX hcov
              · rw [if_neg hcc]
                refine ⟨le_refl _, hbest, Or.inl rfl, ?_⟩
                intro X hX hcov hcc2
                exact absurd hcc2 hcc
            obtain ⟨hb1le, hb1sound, hb1or, hb1ext⟩ := hbest1
            obtain ⟨e1, e2, e3, e4⟩ := ih (pos + 1) selected cost _ hk2 hcost hsel3 hb1sound
            refine ⟨le_trans e1 hb1le, e2, ?_, ?_⟩
            · intro X hX hcov
              have hdrop : empList.drop pos =
                  empList.get ⟨pos, (by omega : pos < empList.length)⟩ ::
                    empList.drop (pos + 1) :=
                List.drop_eq_get_cons hpos
              rw [hdrop] at hX
              rcases List.sublist_cons_iff.mp hX with hX2 | ⟨X', rfl, hX'⟩
              · exact e3 X hX2 hcov
              · by_cases hcc : can_cover_any_requirement
                    (empList.get ⟨pos, (by omega : pos < empList.length)⟩)
                    (get_uncovered_requirements c selected) = true
                · have hcov2 : CoversProp c ((selected ++
                      [empList.get ⟨pos, (by omega : pos < empList.length)⟩]) ++ X') := by
                    rw [List.append_assoc, List.singleton_append]
                    exact hcov
                  have hb := hb1ext X' hX' hcov2 hcc
                  refine le_trans (le_trans e1 hb) (WithTop.coe_le_coe.mpr ?_)
                  rw [calculate_cost_cons]
                  linarith
                · have hall : ∀ r ∈ get_uncovered_requirements c selected,
                      covers_requirement
                        (empList.get ⟨pos, (by omega : pos < empList.length)⟩) r.1 r.2 =
                        false := by
                    intro r hr
                    rcases Bool.eq_false_or_eq_true (covers_requirement
                        (empList.get ⟨pos, (by omega : pos < empList.length)⟩) r.1 r.2)
                        with hbt | hbf
                    · exfalso
                      apply hcc
                      unfold can_cover_any_requirement
                      rw [List.any_eq_true]
                      exact ⟨r, hr, hbt⟩
                    · exact hbf
                  have hcov3 : CoversProp c (selected ++ X') := by
                    intro r hr
                    obtain ⟨d, hd, hcovd⟩ := hcov r hr
                    rcases List.mem_append.mp hd with hdsel | hdcons
                    · exact ⟨d, List.mem_append.mpr (Or.inl hdsel), hcovd⟩
                    · rcases List.mem_cons.mp hdcons with rfl | hdX2
                      · by_cases hselcov : ∃ d2 ∈ selected,
                            covers_requirement d2 r.1 r.2 = true
                        · obtain ⟨d2, hd2, hd2c⟩ := hselcov
                          exact ⟨d2, List.mem_append.mpr (Or.inl hd2), hd2c⟩
                        · exfalso
                          have hrin : r ∈ get_uncovered_requirements c selected := by
                            apply mem_uncovered_of_not_covered c selected hkeys r hr
                            intro d2 hd2
                            rcases Bool.eq_false_or_eq_true
                                (covers_requirement d2 r.1 r.2) with ht | hf
                            · exact absurd ⟨d2, hd2, ht⟩ hselcov
                            · exact hf
                          have hre := hall r hrin
                          rw [hre] at hcovd
                          cases hcovd
                      · exact ⟨d, List.mem_append.mpr (Or.inr hdX2), hcovd⟩
                  have he3 := e3 X' hX' hcov3
                  refine le_trans he3 (WithTop.coe_le_coe.mpr ?_)
                  rw [calculate_cost_cons]
                  have hXn : 0 ≤ calculate_cost X' :=
                    calculate_cost_nonneg (fun x hx => hsal x
                      ((hX'.trans (List.drop_sublist (pos + 1) empList)).subset hx))
                  linarith
            · rcases e4 with h | h
              · rcases hb1or with h2b | h2b
                · exact Or.inl (h.trans h2b)
                · rw [h]
                  exact Or.inr h2b
              · exact Or.inr h
          · rw [bt_eq_infeasible c empList pos selected cost best h1 h2 h3 h4]
            refine ⟨le_refl _, hbest, ?_, Or.inl rfl⟩
            intro X hX hcov
            exfalso
            apply h4
            unfold can_potentially_cover
            rw [List.all_eq_true]
            intro r hr
            apply decide_eq_true
            rw [List.mem_map]
            obtain ⟨d, hd, hcovd⟩ := hcov r (mem_uncovered_iff c selected r |>.mp hr).1
            rcases List.mem_append.mp hd with hdsel | hdX
            · exfalso
              have hun := uncovered_not_covered c selected r hr d hdsel
              rw [hun] at hcovd
              cases hcovd
            · refine ⟨r, List.mem_filter.mpr ⟨hr, ?_⟩, rfl⟩
              rw [List.any_eq_true]
              exact ⟨d, hX.subset hdX, hcovd⟩

/-- Full specification of `BacktrackSolver.solve`: the returned cost is the
exact minimum cover cost; a valid result covers the requirements at its
summed salary; infeasibility yields exactly the invalid sentinel. -/
theorem backtrack_solve_spec (c : Client) (empList : List Employee)
    (hkeys : (c.requirements.map Prod.fst).Nodup)
    (hsal : ∀ e ∈ empList, 0 ≤ e.salary_per_hour) :
    (backtrack_solve c empList).total_cost = minCoverCost c empList ∧
    ((backtrack_solve c empList).is_valid = true →
      CoversProp c (backtrack_solve c empList).employees ∧
      (backtrack_solve c empList).total_cost =
        ((calculate_cost (backtrack_solve c empList).employees : ℚ) : WithTop ℚ)) ∧
    ((backtrack_solve c empList).is_valid = false →
      backtrack_solve c empList = Solution.invalid) ∧
    ((backtrack_solve c empList).is_valid = true ↔ minCoverCost c empList ≠ ⊤) := by
  unfold backtrack_solve
  have hbest : Solution.invalid.is_valid = true → CoversProp c Solution.invalid.employees ∧
      Solution.invalid.total_cost =
        ((calculate_cost Solution.invalid.employees : ℚ) : WithTop ℚ) ∧
      List.Sublist Solution.invalid.employees empList := by
    intro h
    exact absurd h (by simp [Solution.invalid])
  obtain ⟨b1, b2, b3, b4⟩ := backtrack_spec c empList hkeys hsal empList.length 0 [] 0
    Solution.invalid (by omega) rfl (by simp) hbest
  have hA : (backtrack c empList 0 [] 0 Solution.invalid).total_cost =
      minCoverCost c empList := by
    apply le_antisymm
    · apply le_listMin
      intro a ha
      rw [List.mem_map] at ha
      obtain ⟨E, hEf, rfl⟩ := ha
      rw [List.mem_filter] at hEf
      have hEsub : List.Sublist E empList := List.mem_sublists.mp hEf.1
      have hEcov : CoversProp c E := (is_complete_cover_iff c E hkeys).mp hEf.2
      have hEdrop : List.Sublist E (empList.drop 0) := by
        rw [List.drop_zero]
        exact hEsub
      have hres := b3 E hEdrop (by rw [List.nil_append]; exact hEcov)
      rw [zero_add] at hres
      exact hres
    · rcases b4 with hres | hres
      · rw [hres]
        exact le_top
      · obtain ⟨hcov, hcost2, hsub⟩ := b2 hres
        rw [hcost2]
        apply listMin_le_of_mem
        rw [List.mem_map]
        exact ⟨(backtrack c empList 0 [] 0 Solution.invalid).employees, List.mem_filter.mpr
          ⟨List.mem_sublists.mpr hsub, (is_complete_cover_iff _ _ hkeys).mpr hcov⟩, rfl⟩
  refine ⟨hA, fun h => ⟨(b2 h).1, (b2 h).2.1⟩, ?_, ?_⟩
  · intro hinval
    rcases b4 with hres | hres
    · exact hres
    · rw [hres] at hinval
      cases hinval
  · constructor
    · intro hval
      rw [← hA, (b2 hval).2.1]
      exact WithTop.coe_ne_top
    · intro hne
      rcases b4 with hres | hres
      · exfalso
        apply hne
        rw [← hA, hres]
        rfl
      · exact hres

/-! ### Feasibility and solver-level wrappers -/

/-- A feasible instance: some subset of the pool is a complete cover. -/
def feasible (c : Client) (pool : List Employee) : Prop :=
  ∃ X ∈ pool.sublists, is_complete_cover c X = true

instance (c : Client) (pool : List Employee) : Decidable (feasible c pool) := by
  unfold feasible
  infer_instance

theorem minCover_ne_top_iff (c : Client) (pool : List Employee) :
    minCoverCost c pool ≠ ⊤ ↔ feasible c pool := by
  constructor
  · intro h
    rcases listMin_eq_top_or_mem ((pool.sublists.filter
        (fun L => is_complete_cover c L)).map
      (fun L => ((calculate_cost L : ℚ) : WithTop ℚ))) with htop | hmem
    · exact absurd htop h
    · rw [List.mem_map] at hmem
      obtain ⟨E, hEf, _⟩ := hmem
      rw [List.mem_filter] at hEf
      exact ⟨E, hEf.1, hEf.2⟩
  · rintro ⟨X, hXs, hXc⟩
    have hle : minCoverCost c pool ≤ ((calculate_cost X : ℚ) : WithTop ℚ) := by
      apply listMin_le_of_mem
      rw [List.mem_map]
      exact ⟨X, List.mem_filter.mpr ⟨hXs, hXc⟩, rfl⟩
    intro htop
    rw [htop] at hle
    exact WithTop.coe_ne_top (top_le_iff.mp hle)

theorem dp_solve_some_len {c : Client} {pool : List Employee} {sol : Solution}
    (h : dp_solve c pool = some sol) :
    c.requirements.length ≤ MAX_REQUIREMENTS := by
  by_contra hlen
  unfold dp_solve at h
  rw [if_pos (by omega)] at h
  cases h

theorem greedy_solve_spec (c : Client) (pool : List Employee)
    (hkeys : (c.requirements.map Prod.fst).Nodup) :
    (greedy_solve c pool).total_cost =
      ((calculate_cost (greedy_solve c pool).employees : ℚ) : WithTop ℚ) ∧
    (∀ x ∈ (greedy_solve c pool).employees, x ∈ pool) ∧
    ((greedy_solve c pool).employees.map Employee.id).Nodup ∧
    ((greedy_solve c pool).is_valid = true →
      CoversProp c (greedy_solve c pool).employees) := by
  unfold greedy_solve
  obtain ⟨h1, h2, h3, h4⟩ := greedy_go_spec c pool c.requirements [] 0
    (by simp) (fun x hx => absurd hx (List.not_mem_nil x)) rfl hkeys
    (fun r hr => Or.inl hr)
  exact ⟨h1, fun x hx => (h2 x hx).resolve_left (List.not_mem_nil x), h3, h4⟩

/-- A covering, duplicate-free selection from the pool witnesses
feasibility. -/
theorem feasible_of_cover (c : Client) (pool : List Employee)
    (hkeys : (c.requirements.map Prod.fst).Nodup)
    (hids : (pool.map Employee.id).Nodup)
    (E : List Employee) (hsub : ∀ x ∈ E, x ∈ pool)
    (hnd : (E.map Employee.id).Nodup) (hcov : CoversProp c E) :
    feasible c pool := by
  have hEnd : E.Nodup := List.Nodup.of_map _ hnd
  obtain ⟨E2, hperm, hsubl⟩ := List.subperm_of_subset hEnd hsub
  refine ⟨E2, List.mem_sublists.mpr hsubl, ?_⟩
  apply (is_complete_cover_iff c E2 hkeys).mpr
  intro r hr
  obtain ⟨e, he, hec⟩ := hcov r hr
  exact ⟨e, hperm.mem_iff.mpr he, hec⟩

theorem greedy_valid_feasible (c : Client) (pool : List Employee)
    (hkeys : (c.requirements.map Prod.fst).Nodup)
    (hids : (pool.map Employee.id).Nodup)
    (hval : (greedy_solve c pool).is_valid = true) : feasible c pool := by
  obtain ⟨_, h2, h3, h4⟩ := greedy_solve_spec c pool hkeys
  exact feasible_of_cover c pool hkeys hids _ h2 h3 (h4 hval)

/-! ### Oracle cost versus the specification minimum -/

theorem listMin_eq_of_mem_iff (l₁ l₂ : List (WithTop ℚ))
    (h : ∀ a, a ∈ l₁ ↔ a ∈ l₂) : listMin l₁ = listMin l₂ := by
  apply le_antisymm
  · rcases listMin_eq_top_or_mem l₂ with ht | hm
    · rw [ht]; exact le_top
    · exact listMin_le_of_mem ((h _).mpr hm)
  · rcases listMin_eq_top_or_mem l₁ with ht | hm
    · rw [ht]; exact le_top
    · exact listMin_le_of_mem ((h _).mp hm)

/-- On a nonempty requirement set the oracle's minimum over nonempty covering
subsets is the specification minimum over all covering subsets (a covering
subset cannot be empty). -/
theorem oracleMin_eq_minCover (c : Client) (pool : List Employee)
    (hkeys : (c.requirements.map Prod.fst).Nodup)
    (hlvl : ∀ r ∈ c.requirements, 1 ≤ r.2)
    (hreqs : c.requirements ≠ []) :
    oracleMinCost c pool = minCoverCost c pool := by
  unfold oracleMinCost minCoverCost
  apply listMin_eq_of_mem_iff
  intro a
  simp only [List.mem_map, List.mem_filter, List.mem_sublists]
  constructor
  · rintro ⟨L, ⟨hLc, hLcov⟩, rfl⟩
    obtain ⟨hsub, _⟩ := mem_oracle_candidates.mp hLc
    refine ⟨L, ⟨hsub, ?_⟩, rfl⟩
    exact (is_complete_cover_iff c L hkeys).mpr ((oracle_covers_iff c L hlvl).mp hLcov)
  · rintro ⟨L, ⟨hLs, hLcov⟩, rfl⟩
    have hcov := (is_complete_cover_iff c L hkeys).mp hLcov
    have hne : L ≠ [] := by
      intro h0
      obtain ⟨r, hr⟩ := List.exists_mem_of_ne_nil _ hreqs
      obtain ⟨e, he, _⟩ := hcov r hr
      rw [h0] at he
      exact absurd he (List.not_mem_nil e)
    refine ⟨L, ⟨mem_oracle_candidates.mpr ⟨hLs, hne⟩, ?_⟩, rfl⟩
    exact (oracle_covers_iff c L hlvl).mpr hcov

theorem dp_solve_opt_some_len {c : Client} {pool : List Employee} {sol : Solution}
    (h : dp_solve_opt c pool = some sol) :
    c.requirements.length ≤ MAX_REQUIREMENTS := by
  by_contra hlen
  unfold dp_solve_opt at h
  rw [if_pos (by omega)] at h
  cases h

/-! ### Concrete instances used by witnesses and counterexamples -/

/-- Scenario A worker: covers skill 0 at level 5 for 10/h. -/
def scW1 : Employee := ⟨1, "w1", 10, [(0, 5)]⟩

/-- Scenario A worker: covers skill 1 at level 5 for 8/h. -/
def scW2 : Employee := ⟨2, "w2", 8, [(1, 5)]⟩

/-- Scenario A worker: covers both skills for 25/h. -/
def scW3 : Employee := ⟨3, "w3", 25, [(0, 5), (1, 5)]⟩

def scPool : List Employee := [scW1, scW2, scW3]

def scClient : Client := ⟨[(0, 5), (1, 5)]⟩

/-- A single worker covering only skill 0. -/
def cxW : Employee := ⟨1, "solo", 5, [(0, 1)]⟩

def cxPool : List Employee := [cxW]

/-- An infeasible client for `cxPool`: skill 1 is uncoverable. -/
def cx2Client : Client := ⟨[(0, 1), (1, 1)]⟩

/-- A client with no requirements. -/
def c3Client : Client := ⟨[]⟩

/-- Cheap narrow worker: ratio coverage/salary favours it strongly. -/
def c8a : Employee := ⟨1, "a", (1 : ℚ) / 5, [(0, 1)]⟩

/-- Expensive broad worker. -/
def c8b : Employee := ⟨2, "b", (3 : ℚ) / 2, [(0, 1), (1, 1)]⟩

/-! ### Concrete solver runs (the greedy loop is defined by well-founded
recursion, so its concrete values are obtained through the step lemmas) -/

theorem select_sc1 : select_best_employee scPool scClient.requirements = some scW2 := by
  simp +decide only [select_best_employee, scPool, scClient, scW1, scW2, scW3, pyEff,
    Employee.covers_requirements, Employee.has_skill, List.foldl, List.lookup,
    List.filter, List.map, List.length]
  norm_num

theorem select_sc2 :
    select_best_employee [scW1, scW3] [((0 : ℕ), (5 : ℕ))] = some scW1 := by
  simp +decide only [select_best_employee, scW1, scW3, pyEff,
    Employee.covers_requirements, Employee.has_skill, List.foldl, List.lookup,
    List.filter, List.map, List.length]
  norm_num

theorem select_cx2 : select_best_employee cxPool cx2Client.requirements = some cxW := by
  simp +decide only [select_best_employee, cxPool, cx2Client, cxW, pyEff,
    Employee.covers_requirements, Employee.has_skill, List.foldl, List.lookup,
    List.filter, List.map, List.length]
  norm_num

theorem greedy_sc_result :
    greedy_solve scClient scPool = ⟨[scW2, scW1], ((18 : ℚ) : WithTop ℚ), true⟩ := by
  have h1 := greedy_step_eq scClient scPool scClient.requirements [] 0
    (by decide) scW2 select_sc1
  have e1a : scPool.filter (fun x => decide (x.id ≠ scW2.id)) = [scW1, scW3] := by decide
  have e1b : scClient.requirements.filter
      (fun r => decide (¬ r.1 ∈ scW2.covers_requirements scClient.requirements)) =
      [((0 : ℕ), (5 : ℕ))] := by decide
  have e1c : (0 : ℚ) + scW2.salary_per_hour = 8 := by norm_num [scW2]
  rw [e1a, e1b, e1c] at h1
  simp only [List.nil_append] at h1
  have h2 := greedy_step_eq scClient [scW1, scW3] [((0 : ℕ), (5 : ℕ))] [scW2] 8
    (by decide) scW1 select_sc2
  have e2a : [scW1, scW3].filter (fun x => decide (x.id ≠ scW1.id)) = [scW3] := by decide
  have e2b : [((0 : ℕ), (5 : ℕ))].filter
      (fun r => decide (¬ r.1 ∈ scW1.covers_requirements [((0 : ℕ), (5 : ℕ))])) =
      [] := by decide
  have e2c : (8 : ℚ) + scW1.salary_per_hour = 18 := by norm_num [scW1]
  rw [e2a, e2b, e2c] at h2
  simp only [List.cons_append, List.nil_append] at h2
  have h3 := greedy_stop_eq scClient [scW3] [] [scW2, scW1] 18 (by simp)
  simp only [List.isEmpty_nil] at h3
  unfold greedy_solve
  rw [h1, h2, h3]

theorem backtrack_sc_valid : (backtrack_solve scClient scPool).is_valid = true :=
  (backtrack_solve_spec scClient scPool (by decide) (by decide)).2.2.2.mpr (by decide)

theorem greedy_cx2_result :
    greedy_solve cx2Client cxPool = ⟨[cxW], ((5 : ℚ) : WithTop ℚ), false⟩ := by
  have h1 := greedy_step_eq cx2Client cxPool cx2Client.requirements [] 0
    (by decide) cxW select_cx2
  have e1a : cxPool.filter (fun x => decide (x.id ≠ cxW.id)) = [] := by decide
  have e1b : cx2Client.requirements.filter
      (fun r => decide (¬ r.1 ∈ cxW.covers_requirements cx2Client.requirements)) =
      [((1 : ℕ), (1 : ℕ))] := by decide
  have e1c : (0 : ℚ) + cxW.salary_per_hour = 5 := by norm_num [cxW]
  rw [e1a, e1b, e1c] at h1
  simp only [List.nil_append] at h1
  have h2 := greedy_stop_eq cx2Client [] [((1 : ℕ), (1 : ℕ))] [cxW] 5 (by simp)
  simp only [List.isEmpty_cons] at h2
  unfold greedy_solve
  rw [h1, h2]

theorem oracle_candidates_cx : oracle_candidates cxPool = [[cxW]] := by decide

theorem oracle_c3_result :
    oracle_solve c3Client cxPool = ([cxW], ((5 : ℚ) : WithTop ℚ)) := by
  unfold oracle_solve
  rw [oracle_candidates_cx]
  simp only [List.foldl]
  rw [if_pos (by decide), if_pos (WithTop.coe_lt_top _)]
  have hc : calculate_cost [cxW] = 5 := by norm_num [calculate_cost, cxW]
  rw [hc]

/-! ### The claims -/

/-- C1: on instances within the oracle's practical size (≤ 15 workers) and the
DP requirement limit, `backtrack_solve` and `dp_solve` both return a solution
whose `total_cost` is `minCoverCost` — the minimum cost over all subsets of
the pool forming a complete cover, which is also the cost the oracle computes
whenever the requirement set is nonempty — when a feasible cover exists, and
both report infeasibility exactly when no subset covers. -/
theorem claim_C1 (c : Client) (pool : List Employee)
    (hkeys : (c.requirements.map Prod.fst).Nodup)
    (hsal : ∀ e ∈ pool, 0 ≤ e.salary_per_hour)
    (hids : (pool.map Employee.id).Nodup)
    (hlen : c.requirements.length ≤ MAX_REQUIREMENTS)
    (hsize : pool.length ≤ 15) :
    (feasible c pool →
      (backtrack_solve c pool).is_valid = true ∧
      (backtrack_solve c pool).total_cost = minCoverCost c pool ∧
      ∃ sol, dp_solve c pool = some sol ∧ sol.is_valid = true ∧
        sol.total_cost = minCoverCost c pool) ∧
    (¬ feasible c pool →
      backtrack_solve c pool = Solution.invalid ∧
      dp_solve c pool = some Solution.invalid) ∧
    (c.requirements ≠ [] → (∀ r ∈ c.requirements, 1 ≤ r.2) →
      (oracle_solve c pool).2 = minCoverCost c pool) := by
  have hbt := backtrack_solve_spec c pool hkeys hsal
  obtain ⟨sol, heq, hcost, hvp, hinvd, hiff⟩ := dp_solve_spec c pool hkeys hsal hids hlen
  refine ⟨?_, ?_, ?_⟩
  · intro hfeas
    have hne := (minCover_ne_top_iff c pool).mpr hfeas
    exact ⟨hbt.2.2.2.mpr hne, hbt.1, sol, heq, hiff.mpr hne, hcost⟩
  · intro hinf
    have htop : minCoverCost c pool = ⊤ := by
      by_contra h
      exact hinf ((minCover_ne_top_iff c pool).mp h)
    have hnv : (backtrack_solve c pool).is_valid = false := by
      cases hb : (backtrack_solve c pool).is_valid
      · rfl
      · exact absurd htop (hbt.2.2.2.mp hb)
    have hsv : sol.is_valid = false := by
      cases hs : sol.is_valid
      · rfl
      · exact absurd htop (hiff.mp hs)
    exact ⟨hbt.2.2.1 hnv, by rw [heq, hinvd hsv]⟩
  · intro hne hlvl
    rw [oracle_solve_cost]
    exact oracleMin_eq_minCover c pool hkeys hlvl hne

theorem claim_C1_witness :
    (backtrack_solve scClient scPool).is_valid = true ∧
    (backtrack_solve scClient scPool).total_cost = minCoverCost scClient scPool := by
  have h := (claim_C1 scClient scPool (by decide) (by decide) (by decide) (by decide)
    (by decide)).1 (by decide)
  exact ⟨h.1, h.2.1⟩

/-- C2 counterexample: on an infeasible instance (the only worker cannot cover
skill 1) the greedy solver does not return the invalid sentinel: it keeps its
accumulated selection and its finite accumulated cost, only clearing the
validity flag. -/
theorem claim_C2_cex :
    ¬ feasible cx2Client cxPool ∧
    greedy_solve cx2Client cxPool = ⟨[cxW], ((5 : ℚ) : WithTop ℚ), false⟩ ∧
    greedy_solve cx2Client cxPool ≠ Solution.invalid := by
  refine ⟨by decide, greedy_cx2_result, ?_⟩
  rw [greedy_cx2_result]
  decide

/-- C2 (amended): when no subset of the pool covers the requirements, no solver
raises: Backtrack returns the invalid sentinel, DP returns it whenever the
requirement count is within its limit, the Oracle returns the empty set with
infinite internal cost — but Greedy only clears the validity flag while
keeping its accumulated selection and finite cost. -/
theorem claim_C2 (c : Client) (pool : List Employee)
    (hkeys : (c.requirements.map Prod.fst).Nodup)
    (hsal : ∀ e ∈ pool, 0 ≤ e.salary_per_hour)
    (hids : (pool.map Employee.id).Nodup)
    (hlvl : ∀ r ∈ c.requirements, 1 ≤ r.2)
    (hinf : ¬ feasible c pool) :
    backtrack_solve c pool = Solution.invalid ∧
    (c.requirements.length ≤ MAX_REQUIREMENTS → dp_solve c pool = some Solution.invalid) ∧
    (greedy_solve c pool).is_valid = false ∧
    oracle_solve c pool = ([], ⊤) := by
  have htop : minCoverCost c pool = ⊤ := by
    by_contra h
    exact hinf ((minCover_ne_top_iff c pool).mp h)
  have hbt := backtrack_solve_spec c pool hkeys hsal
  refine ⟨?_, ?_, ?_, ?_⟩
  · apply hbt.2.2.1
    cases hb : (backtrack_solve c pool).is_valid
    · rfl
    · exact absurd htop (hbt.2.2.2.mp hb)
  · intro hlen
    obtain ⟨sol, heq, _, _, hinvd, hiff⟩ := dp_solve_spec c pool hkeys hsal hids hlen
    have hsv : sol.is_valid = false := by
      cases hs : sol.is_valid
      · rfl
      · exact absurd htop (hiff.mp hs)
    rw [heq, hinvd hsv]
  · cases hb : (greedy_solve c pool).is_valid
    · rfl
    · exact absurd (greedy_valid_feasible c pool hkeys hids hb) hinf
  · rcases oracle_solve_set c pool with h | ⟨L, hLm, hLcov, _⟩
    · exact h
    · exfalso
      obtain ⟨hsub, _⟩ := mem_oracle_candidates.mp hLm
      exact hinf ⟨L, List.mem_sublists.mpr hsub,
        (is_complete_cover_iff c L hkeys).mpr ((oracle_covers_iff c L hlvl).mp hLcov)⟩

theorem claim_C2_witness :
    backtrack_solve cx2Client cxPool = Solution.invalid ∧
    dp_solve cx2Client cxPool = some Solution.invalid ∧
    (greedy_solve cx2Client cxPool).is_valid = false ∧
    oracle_solve cx2Client cxPool = ([], ⊤) := by
  have h := claim_C2 cx2Client cxPool (by decide) (by decide) (by decide) (by decide)
    (by decide)
  exact ⟨h.1, h.2.1 (by decide), h.2.2.1, h.2.2.2⟩

/-- C3 counterexample: with an empty requirement set and a nonempty pool the
oracle does not return an empty selection at cost 0: it never enumerates the
empty subset, so it returns the cheapest nonempty subset and its cost. -/
theorem claim_C3_cex :
    c3Client.requirements = [] ∧
    oracle_solve c3Client cxPool = ([cxW], ((5 : ℚ) : WithTop ℚ)) ∧
    (oracle_solve c3Client cxPool).1 ≠ [] ∧
    (oracle_solve c3Client cxPool).2 ≠ ((0 : ℚ) : WithTop ℚ) := by
  refine ⟨rfl, oracle_c3_result, ?_, ?_⟩
  · rw [oracle_c3_result]
    decide
  · rw [oracle_c3_result]
    show ((5 : ℚ) : WithTop ℚ) ≠ ((0 : ℚ) : WithTop ℚ)
    simp only [ne_eq, WithTop.coe_eq_coe]
    norm_num

/-- C3 (amended): with an empty requirement set Greedy, Backtrack and both DP
solvers return the valid empty solution at cost 0; the Oracle instead returns
its minimum over nonempty subsets only (the empty set with infinite cost when
the pool is empty). -/
theorem claim_C3 (c : Client) (pool : List Employee)
    (hreqs : c.requirements = []) :
    greedy_solve c pool = ⟨[], ((0 : ℚ) : WithTop ℚ), true⟩ ∧
    backtrack_solve c pool = ⟨[], ((0 : ℚ) : WithTop ℚ), true⟩ ∧
    dp_solve c pool = some ⟨[], ((0 : ℚ) : WithTop ℚ), true⟩ ∧
    dp_solve_opt c pool = some ⟨[], ((0 : ℚ) : WithTop ℚ), true⟩ ∧
    (oracle_solve c pool).2 = oracleMinCost c pool ∧
    (pool = [] → oracle_solve c pool = ([], ⊤)) := by
  have h0 : c.requirements.length = 0 := by rw [hreqs]; rfl
  refine ⟨?_, ?_, ?_, ?_, oracle_solve_cost c pool, ?_⟩
  · unfold greedy_solve
    rw [hreqs]
    have h := greedy_stop_eq c pool [] [] 0 (by simp)
    simp only [List.isEmpty_nil] at h
    exact h
  · unfold backtrack_solve
    have h1 : ¬ (Solution.invalid.total_cost ≤ (((0 : ℚ) : ℚ) : WithTop ℚ)) := by decide
    have h2 : is_complete_cover c [] = true := by
      unfold is_complete_cover
      rw [hreqs]
      rfl
    exact bt_eq_found c pool 0 [] 0 Solution.invalid h1 h2
  · unfold dp_solve
    rw [if_neg (by rw [h0]; decide), if_pos h0]
  · unfold dp_solve_opt
    rw [if_neg (by rw [h0]; decide), if_pos h0]
  · intro hp
    subst hp
    rfl

theorem claim_C3_witness :
    greedy_solve c3Client cxPool = ⟨[], ((0 : ℚ) : WithTop ℚ), true⟩ ∧
    backtrack_solve c3Client cxPool = ⟨[], ((0 : ℚ) : WithTop ℚ), true⟩ ∧
    dp_solve c3Client cxPool = some ⟨[], ((0 : ℚ) : WithTop ℚ), true⟩ := by
  have h := claim_C3 c3Client cxPool (by decide)
  exact ⟨h.1, h.2.1, h.2.2.1⟩

/-- C4: every valid solution returned by Greedy, Backtrack or either DP solver
has `total_cost` equal to the sum of hourly salaries over its selection. -/
theorem claim_C4 (c : Client) (pool : List Employee)
    (hkeys : (c.requirements.map Prod.fst).Nodup)
    (hsal : ∀ e ∈ pool, 0 ≤ e.salary_per_hour)
    (hids : (pool.map Employee.id).Nodup) :
    ((greedy_solve c pool).is_valid = true →
      (greedy_solve c pool).total_cost =
        ((calculate_cost (greedy_solve c pool).employees : ℚ) : WithTop ℚ)) ∧
    ((backtrack_solve c pool).is_valid = true →
      (backtrack_solve c pool).total_cost =
        ((calculate_cost (backtrack_solve c pool).employees : ℚ) : WithTop ℚ)) ∧
    (∀ sol, dp_solve c pool = some sol → sol.is_valid = true →
      sol.total_cost = ((calculate_cost sol.employees : ℚ) : WithTop ℚ)) ∧
    (∀ sol, dp_solve_opt c pool = some sol → sol.is_valid = true →
      sol.total_cost = ((calculate_cost sol.employees : ℚ) : WithTop ℚ)) := by
  refine ⟨fun _ => (greedy_solve_spec c pool hkeys).1,
    fun hv => ((backtrack_solve_spec c pool hkeys hsal).2.1 hv).2, ?_, ?_⟩
  · intro sol hsol hv
    obtain ⟨sol2, heq, _, hvp, _, _⟩ :=
      dp_solve_spec c pool hkeys hsal hids (dp_solve_some_len hsol)
    rw [hsol] at heq
    injection heq with h2
    subst h2
    exact (hvp hv).1
  · intro sol hsol hv
    obtain ⟨sol2, heq, _, hvp, _, _⟩ :=
      dp_solve_opt_spec c pool hkeys hsal hids (dp_solve_opt_some_len hsol)
    rw [hsol] at heq
    injection heq with h2
    subst h2
    exact (hvp hv).1

theorem claim_C4_witness :
    (greedy_solve scClient scPool).total_cost =
      ((calculate_cost (greedy_solve scClient scPool).employees : ℚ) : WithTop ℚ) ∧
    (backtrack_solve scClient scPool).total_cost =
      ((calculate_cost (backtrack_solve scClient scPool).employees : ℚ) : WithTop ℚ) := by
  have h := claim_C4 scClient scPool (by decide) (by decide) (by decide)
  exact ⟨h.1 (by rw [greedy_sc_result]), h.2.1 backtrack_sc_valid⟩

/-- C5: `dp_solve_opt` and `dp_solve` agree on `total_cost` on every instance
(both reject over-long requirement lists, and otherwise both return the
optimal cost `minCoverCost`): the mask-merging and dominance pre-filter never
changes the optimum. -/
theorem claim_C5 (c : Client) (pool : List Employee)
    (hkeys : (c.requirements.map Prod.fst).Nodup)
    (hsal : ∀ e ∈ pool, 0 ≤ e.salary_per_hour)
    (hids : (pool.map Employee.id).Nodup) :
    (dp_solve c pool).map Solution.total_cost =
      (dp_solve_opt c pool).map Solution.total_cost := by
  by_cases hlen : c.requirements.length ≤ MAX_REQUIREMENTS
  · obtain ⟨s1, he1, hc1, _⟩ := dp_solve_spec c pool hkeys hsal hids hlen
    obtain ⟨s2, he2, hc2, _⟩ := dp_solve_opt_spec c pool hkeys hsal hids hlen
    rw [he1, he2]
    simp only [Option.map_some']
    rw [hc1, hc2]
  · unfold dp_solve dp_solve_opt
    rw [if_pos (by omega), if_pos (by omega)]

theorem claim_C5_witness :
    (dp_solve scClient scPool).map Solution.total_cost =
      (dp_solve_opt scClient scPool).map Solution.total_cost :=
  claim_C5 scClient scPool (by decide) (by decide) (by decide)

/-- C6: every valid solution returned by Greedy, Backtrack or either DP solver
covers every requirement: each requirement (skill, level) is satisfied by some
selected worker with that skill at level ≥ the required level. -/
theorem claim_C6 (c : Client) (pool : List Employee)
    (hkeys : (c.requirements.map Prod.fst).Nodup)
    (hsal : ∀ e ∈ pool, 0 ≤ e.salary_per_hour)
    (hids : (pool.map Employee.id).Nodup) :
    ((greedy_solve c pool).is_valid = true →
      CoversProp c (greedy_solve c pool).employees) ∧
    ((backtrack_solve c pool).is_valid = true →
      CoversProp c (backtrack_solve c pool).employees) ∧
    (∀ sol, dp_solve c pool = some sol → sol.is_valid = true →
      CoversProp c sol.employees) ∧
    (∀ sol, dp_solve_opt c pool = some sol → sol.is_valid = true →
      CoversProp c sol.employees) := by
  refine ⟨(greedy_solve_spec c pool hkeys).2.2.2,
    fun hv => ((backtrack_solve_spec c pool hkeys hsal).2.1 hv).1, ?_, ?_⟩
  · intro sol hsol hv
    obtain ⟨sol2, heq, _, hvp, _, _⟩ :=
      dp_solve_spec c pool hkeys hsal hids (dp_solve_some_len hsol)
    rw [hsol] at heq
    injection heq with h2
    subst h2
    exact (hvp hv).2
  · intro sol hsol hv
    obtain ⟨sol2, heq, _, hvp, _, _⟩ :=
      dp_solve_opt_spec c pool hkeys hsal hids (dp_solve_opt_some_len hsol)
    rw [hsol] at heq
    injection heq with h2
    subst h2
    exact (hvp hv).2

theorem claim_C6_witness :
    CoversProp scClient (greedy_solve scClient scPool).employees ∧
    CoversProp scClient (backtrack_solve scClient scPool).employees := by
  have h := claim_C6 scClient scPool (by decide) (by decide) (by decide)
  exact ⟨h.1 (by rw [greedy_sc_result]), h.2.1 backtrack_sc_valid⟩

/-- C7 counterexample: with an empty requirement set both solvers "find a
cover" (greedy returns the valid empty solution, the oracle finds its cheapest
nonempty subset), yet the greedy cost 0 is strictly below the oracle cost 5,
because the oracle never considers the empty subset. -/
theorem claim_C7_cex :
    (greedy_solve c3Client cxPool).is_valid = true ∧
    (oracle_solve c3Client cxPool).2 = ((5 : ℚ) : WithTop ℚ) ∧
    (greedy_solve c3Client cxPool).total_cost = ((0 : ℚ) : WithTop ℚ) ∧
    ¬ ((oracle_solve c3Client cxPool).2 ≤ (greedy_solve c3Client cxPool).total_cost) := by
  have hg : greedy_solve c3Client cxPool = ⟨[], ((0 : ℚ) : WithTop ℚ), true⟩ := by
    unfold greedy_solve
    have h := greedy_stop_eq c3Client cxPool [] [] 0 (by simp)
    simp only [List.isEmpty_nil] at h
    exact h
  refine ⟨by rw [hg], by rw [oracle_c3_result], by rw [hg], ?_⟩
  rw [hg, oracle_c3_result]
  show ¬ (((5 : ℚ) : WithTop ℚ) ≤ ((0 : ℚ) : WithTop ℚ))
  simp only [WithTop.coe_le_coe]
  norm_num

/-- C7 (amended): on a nonempty requirement set, whenever the greedy solver
returns a valid cover its cost is at least the oracle's minimum cover cost. -/
theorem claim_C7 (c : Client) (pool : List Employee)
    (hkeys : (c.requirements.map Prod.fst).Nodup)
    (hids : (pool.map Employee.id).Nodup)
    (hlvl : ∀ r ∈ c.requirements, 1 ≤ r.2)
    (hreqs : c.requirements ≠ [])
    (hg : (greedy_solve c pool).is_valid = true) :
    (oracle_solve c pool).2 ≤ (greedy_solve c pool).total_cost := by
  obtain ⟨h1, h2, h3, h4⟩ := greedy_solve_spec c pool hkeys
  have hcov := h4 hg
  rw [oracle_solve_cost, h1, oracleMin_eq_minCover c pool hkeys hlvl hreqs]
  have hEnd : (greedy_solve c pool).employees.Nodup := List.Nodup.of_map _ h3
  obtain ⟨E2, hperm, hsubl⟩ :=
    List.subperm_of_subset hEnd (fun x hx => h2 x hx)
  have hcost : calculate_cost E2 = calculate_cost (greedy_solve c pool).employees := by
    unfold calculate_cost
    exact (hperm.map _).sum_eq
  have hcov2 : is_complete_cover c E2 = true := by
    apply (is_complete_cover_iff c E2 hkeys).mpr
    intro r hr
    obtain ⟨e, he, hce⟩ := hcov r hr
    exact ⟨e, hperm.mem_iff.mpr he, hce⟩
  calc minCoverCost c pool ≤ ((calculate_cost E2 : ℚ) : WithTop ℚ) := by
        apply listMin_le_of_mem
        rw [List.mem_map]
        exact ⟨E2, List.mem_filter.mpr ⟨List.mem_sublists.mpr hsubl, hcov2⟩, rfl⟩
    _ = _ := by rw [hcost]

theorem claim_C7_witness :
    (oracle_solve scClient scPool).2 ≤ (greedy_solve scClient scPool).total_cost :=
  claim_C7 scClient scPool (by decide) (by decide) (by decide) (by decide)
    (by rw [greedy_sc_result])

/-- C8 counterexample: the selection metric implemented is
`coverage / max(salary, 1)`, not `coverage / salary`: with a worker costing
1/5 per hour (spec ratio 5) against a broad worker costing 3/2 (spec ratio
4/3), the implementation picks the broad worker, so the chosen worker does
not maximize the specified ratio. -/
theorem claim_C8_cex :
    select_best_employee [c8a, c8b] [((0 : ℕ), (1 : ℕ)), (1, 1)] = some c8b ∧
    specEff c8b [((0 : ℕ), (1 : ℕ)), (1, 1)] < specEff c8a [((0 : ℕ), (1 : ℕ)), (1, 1)] := by
  constructor
  · simp +decide only [select_best_employee, c8a, c8b, pyEff,
      Employee.covers_requirements, Employee.has_skill, List.foldl, List.lookup,
      List.filter, List.map, List.length]
    norm_num
  · simp only [specEff, c8a, c8b, Employee.covers_requirements,
      Employee.has_skill, List.lookup, List.filter, List.map, List.length]
    norm_num

/-- C8 (amended): the worker chosen at each greedy iteration maximizes the
implemented ratio `coverage / max(salary, 1)` over the available workers, and
a worker covering no uncovered requirement is never chosen. -/
theorem claim_C8 (available : List Employee) (uncovered : List (Skill × ℕ))
    (e : Employee) (h : select_best_employee available uncovered = some e) :
    e ∈ available ∧ (e.covers_requirements uncovered).length ≠ 0 ∧
      ∀ x ∈ available, pyEff x uncovered ≤ pyEff e uncovered :=
  select_best_spec available uncovered h

theorem claim_C8_witness :
    cxW ∈ cxPool ∧
    (cxW.covers_requirements cx2Client.requirements).length ≠ 0 := by
  have h := claim_C8 cxPool cx2Client.requirements cxW select_cx2
  exact ⟨h.1, h.2.1⟩

/-- C9: `dp_solve` reports the `ValueError` (modelled as `none`) exactly when
the instance has more than `MAX_REQUIREMENTS = 20` requirements; within the
limit it always returns a solution. -/
theorem claim_C9 (c : Client) (pool : List Employee) :
    dp_solve c pool = none ↔ MAX_REQUIREMENTS < c.requirements.length := by
  constructor
  · intro h
    by_contra hlen
    unfold dp_solve at h
    rw [if_neg hlen] at h
    dsimp only at h
    split at h
    · exact Option.noConfusion h
    · split at h
      · exact Option.noConfusion h
      · exact Option.noConfusion h
  · intro h
    unfold dp_solve
    rw [if_pos h]

theorem claim_C9_witness :
    dp_solve scClient scPool = none ↔
      MAX_REQUIREMENTS < scClient.requirements.length :=
  claim_C9 scClient scPool

/-- C10: two employees are equal with identical hash exactly when their ids
are equal (name, salary and skills are ignored), and consequently a Python
set of employees — modelled by insertion with this equality — holds at most
one employee per id. -/
theorem claim_C10 :
    (∀ a b : Employee, (a.pyEq b = true ∧ a.pyHash = b.pyHash) ↔ a.id = b.id) ∧
    (∀ l : List Employee, ((pySetOfList l).map Employee.id).Nodup) := by
  refine ⟨?_, pySetOfList_nodup⟩
  intro a b
  constructor
  · rintro ⟨h, _⟩
    have h2 : (a.id == b.id) = true := h
    exact eq_of_beq h2
  · intro h
    constructor
    · show (a.id == b.id) = true
      rw [h]
      exact beq_self_eq_true b.id
    · show pyIntHash a.id = pyIntHash b.id
      rw [h]

theorem claim_C10_witness :
    (scW1.pyEq scW1 = true ∧ scW1.pyHash = scW1.pyHash) ↔ scW1.id = scW1.id :=
  claim_C10.1 scW1 scW1

end StaffCover
